import Mathlib

/-!
Shallow embedding of the core of the `roslibrust` repository (lucasw fork)
used to check the natural-language specification against the code.

Embedded components:
* `roslibrust_codegen/src/integral_types.rs` — `Time`, `Duration` and the
  `Add<Duration> for Time` implementation.
* `roslibrust_codegen/src/lib.rs` — the message data model
  (`FieldType`, `FieldInfo`, `ConstantInfo`, `ParsedMessageFile`,
  `MessageFile`, `ServiceFile`), the md5sum / full-definition /
  fixed-length computations, and `resolve_dependency_graph`.
* `roslibrust/src/ros1/publisher.rs` — the per-connection body of
  `Publication::tcp_accept_task` and the per-message body of
  `Publication::publish_task`.

Machine integers are modelled as `Nat` / `Int` with explicit wrap-around
(`% 2^32`) where the Rust code can overflow (`as u32` casts).  Rust's
truncating `i64` division is `Int.tdiv`; `i64::rem_euclid` is `Int.emod`.
Recursive walks over the resolved-message graph take an explicit fuel
argument (the Rust code recurses through a `BTreeMap` that is acyclic by
construction); exhausted fuel yields `none`, exactly like a failed map
lookup does in the Rust code (which returns `Option::None` via `?`).
-/

/-! ## Integral types (`integral_types.rs`) -/

/-- Embeds `struct Time { secs: u32, nsecs: u32 }`.  Fields are `Nat`;
the `u32` range constraint is imposed by hypotheses where relevant. -/
structure RosTime where
  secs : Nat
  nsecs : Nat
deriving DecidableEq, Repr

/-- Embeds `struct Duration { sec: i32, nsec: i32 }`.  Fields are `Int`;
the `i32` range constraint is imposed by hypotheses where relevant. -/
structure RosDuration where
  sec : Int
  nsec : Int
deriving DecidableEq, Repr

/-- Embeds `impl Add<Duration> for Time` (`integral_types.rs` lines 98-113):
`nsec_sum = self.nsecs as i64 + rhs.nsec as i64`,
`secs = self.secs as i64 + rhs.sec as i64 + nsec_sum / 1_000_000_000`
(truncating `i64` division), `nsecs = nsec_sum.rem_euclid(1_000_000_000)`,
clamp to zero when `secs < 0`, otherwise cast with `as u32`
(low 32 bits, i.e. `% 2^32` for the non-negative `secs`). -/
def timeAddDuration (t : RosTime) (rhs : RosDuration) : RosTime :=
  let nsec_sum : Int := (t.nsecs : Int) + rhs.nsec
  let secs : Int := (t.secs : Int) + rhs.sec + nsec_sum.tdiv 1000000000
  let nsecs : Int := nsec_sum.emod 1000000000
  if secs < 0 then
    { secs := 0, nsecs := 0 }
  else
    { secs := secs.toNat % 2 ^ 32, nsecs := nsecs.toNat % 2 ^ 32 }

/-- The mathematically exact whole-second part of `t + d`, carrying the
nanosecond sum into the seconds with floor division, so that the
corresponding nanosecond part lies in `[0, 1e9)`.  This is the
"exact integer sum of seconds (with nanosecond carry)" that the
specification's clamping sentence speaks about. -/
def exactSecondsSum (t : RosTime) (rhs : RosDuration) : Int :=
  (t.secs : Int) + rhs.sec + (((t.nsecs : Int) + rhs.nsec).fdiv 1000000000)

/-! ## Byte-level helpers and the MD5 digest

The Rust code hashes with the external `md5` crate (RFC 1321 MD5) and
formats digests with `{:x}` (32 lowercase hex characters).  The digest is
implemented here as a pure function over byte lists; 32-bit words are
`Nat` reduced `% 2^32`. -/

/-- Modulus for 32-bit words. -/
def m32 : Nat := 4294967296

/-- Left-rotation of a 32-bit word. -/
def rotl32 (x s : Nat) : Nat :=
  ((x <<< s) ||| (x >>> (32 - s))) % m32

/-- Bitwise complement of a 32-bit word. -/
def not32 (x : Nat) : Nat := x ^^^ 4294967295

/-- The 64 MD5 round constants `K[i] = floor(2^32 * |sin(i+1)|)`. -/
def md5K : List Nat :=
  [0xd76aa478, 0xe8c7b756, 0x242070db, 0xc1bdceee,
   0xf57c0faf, 0x4787c62a, 0xa8304613, 0xfd469501,
   0x698098d8, 0x8b44f7af, 0xffff5bb1, 0x895cd7be,
   0x6b901122, 0xfd987193, 0xa679438e, 0x49b40821,
   0xf61e2562, 0xc040b340, 0x265e5a51, 0xe9b6c7aa,
   0xd62f105d, 0x02441453, 0xd8a1e681, 0xe7d3fbc8,
   0x21e1cde6, 0xc33707d6, 0xf4d50d87, 0x455a14ed,
   0xa9e3e905, 0xfcefa3f8, 0x676f02d9, 0x8d2a4c8a,
   0xfffa3942, 0x8771f681, 0x6d9d6122, 0xfde5380c,
   0xa4beea44, 0x4bdecfa9, 0xf6bb4b60, 0xbebfbc70,
   0x289b7ec6, 0xeaa127fa, 0xd4ef3085, 0x04881d05,
   0xd9d4d039, 0xe6db99e5, 0x1fa27cf8, 0xc4ac5665,
   0xf4292244, 0x432aff97, 0xab9423a7, 0xfc93a039,
   0x655b59c3, 0x8f0ccc92, 0xffeff47d, 0x85845dd1,
   0x6fa87e4f, 0xfe2ce6e0, 0xa3014314, 0x4e0811a1,
   0xf7537e82, 0xbd3af235, 0x2ad7d2bb, 0xeb86d391]

/-- The 64 MD5 per-round left-rotation amounts. -/
def md5S : List Nat :=
  [7, 12, 17, 22, 7, 12, 17, 22, 7, 12, 17, 22, 7, 12, 17, 22,
   5, 9, 14, 20, 5, 9, 14, 20, 5, 9, 14, 20, 5, 9, 14, 20,
   4, 11, 16, 23, 4, 11, 16, 23, 4, 11, 16, 23, 4, 11, 16, 23,
   6, 10, 15, 21, 6, 10, 15, 21, 6, 10, 15, 21, 6, 10, 15, 21]

/-- Round function and message-word index of MD5 step `i`. -/
def md5Mix (i b c d : Nat) : Nat × Nat :=
  if i < 16 then ((b &&& c) ||| (not32 b &&& d), i)
  else if i < 32 then ((d &&& b) ||| (not32 d &&& c), (5 * i + 1) % 16)
  else if i < 48 then (b ^^^ c ^^^ d, (3 * i + 5) % 16)
  else (c ^^^ (b ||| not32 d), (7 * i) % 16)

/-- One 64-byte MD5 block update on the running state, `w` being the
block's 16 little-endian 32-bit words. -/
def md5ProcessBlock (st : Nat × Nat × Nat × Nat) (w : List Nat) :
    Nat × Nat × Nat × Nat :=
  let step := fun (abcd : Nat × Nat × Nat × Nat) (i : Nat) =>
    let (a, b, c, d) := abcd
    let (f, g) := md5Mix i b c d
    let tmp := (f + a + md5K.getD i 0 + w.getD g 0) % m32
    (d, (b + rotl32 tmp (md5S.getD i 0)) % m32, b, c)
  let (a, b, c, d) := (List.range 64).foldl step st
  ((st.1 + a) % m32, (st.2.1 + b) % m32, (st.2.2.1 + c) % m32,
   (st.2.2.2 + d) % m32)

/-- MD5 padding: `0x80`, zeros to 56 mod 64, then the 64-bit
little-endian bit length. -/
def md5Pad (msg : List Nat) : List Nat :=
  let len := msg.length
  let bitLen := (len * 8) % 2 ^ 64
  let padZeros := (119 - len % 64) % 64
  msg ++ 0x80 :: List.replicate padZeros 0 ++
    (List.range 8).map (fun i => (bitLen >>> (8 * i)) % 256)

/-- Split a byte list into 64-byte chunks. -/
def chunk64 (l : List Nat) : List (List Nat) :=
  (List.range ((l.length + 63) / 64)).map (fun i => (l.drop (64 * i)).take 64)

/-- The 16 little-endian words of one 64-byte chunk. -/
def chunkWords (chunk : List Nat) : List Nat :=
  (List.range 16).map (fun j =>
    chunk.getD (4 * j) 0 + 256 * chunk.getD (4 * j + 1) 0 +
      65536 * chunk.getD (4 * j + 2) 0 + 16777216 * chunk.getD (4 * j + 3) 0)

/-- The 16-byte MD5 digest of a byte list. -/
def md5Digest (msg : List Nat) : List Nat :=
  let st := (chunk64 (md5Pad msg)).foldl
    (fun st ch => md5ProcessBlock st (chunkWords ch))
    (0x67452301, 0xefcdab89, 0x98badcfe, 0x10325476)
  [st.1, st.2.1, st.2.2.1, st.2.2.2].flatMap
    (fun w => (List.range 4).map (fun i => (w >>> (8 * i)) % 256))

/-- Lowercase hexadecimal digit. -/
def hexDigit (n : Nat) : Char := "0123456789abcdef".data.getD n '0'

/-- Two lowercase hex characters of a byte. -/
def byteToHex (b : Nat) : List Char := [hexDigit (b / 16), hexDigit (b % 16)]

/-- UTF-8 encoding of one character (Rust `str::as_bytes` semantics). -/
def utf8Bytes (c : Char) : List Nat :=
  let n := c.toNat
  if n < 0x80 then [n]
  else if n < 0x800 then [0xC0 ||| (n >>> 6), 0x80 ||| (n &&& 0x3F)]
  else if n < 0x10000 then
    [0xE0 ||| (n >>> 12), 0x80 ||| ((n >>> 6) &&& 0x3F), 0x80 ||| (n &&& 0x3F)]
  else
    [0xF0 ||| (n >>> 18), 0x80 ||| ((n >>> 12) &&& 0x3F),
     0x80 ||| ((n >>> 6) &&& 0x3F), 0x80 ||| (n &&& 0x3F)]

/-- UTF-8 bytes of a string. -/
def strBytes (s : String) : List Nat := s.data.flatMap utf8Bytes

/-- The 32-lowercase-hex-character MD5 digest of a string, exactly what
`format!("{md5sum:x}")` produces in the Rust code. -/
def md5HexOfString (s : String) : String :=
  String.mk ((md5Digest (strBytes s)).flatMap byteToHex)

/-- Rust `char::is_whitespace`: the Unicode `White_Space` property. -/
def isRustWhitespace (c : Char) : Bool :=
  let n := c.toNat
  n == 0x09 || n == 0x0A || n == 0x0B || n == 0x0C || n == 0x0D ||
  n == 0x20 || n == 0x85 || n == 0xA0 || n == 0x1680 ||
  (0x2000 ≤ n && n ≤ 0x200A) || n == 0x2028 || n == 0x2029 ||
  n == 0x202F || n == 0x205F || n == 0x3000

/-- Rust `str::trim_end`. -/
def rustTrimEnd (s : String) : String :=
  String.mk (s.data.reverse.dropWhile isRustWhitespace).reverse

/-- Rust `str::trim` (both ends). -/
def rustTrim (s : String) : String :=
  String.mk
    ((s.data.dropWhile isRustWhitespace).reverse.dropWhile
      isRustWhitespace).reverse


/-! ## Message data model (`roslibrust_codegen/src/lib.rs`) -/

/-- Embeds `enum RosVersion { ROS1, ROS2 }` (`utils.rs`, declared outside
`src/` but fixed by the spec's two ROS-version tags). -/
inductive RosVersion where
  | ros1
  | ros2
deriving DecidableEq, Repr

/-- Modelled from the spec: the ROS1 primitive set of §4.1 ("bool, int8,
uint8, int16, uint16, int32, uint32, int64, uint64, float32, float64,
string, time, duration").  The authoritative `ROS_TYPE_TO_RUST_TYPE_MAP`
lives in `gen.rs`, which is not among the provided source files; only its
key set matters here. -/
def ros1PrimitiveTypes : List String :=
  ["bool", "int8", "uint8", "int16", "uint16", "int32", "uint32",
   "int64", "uint64", "float32", "float64", "string", "time", "duration"]

/-- Modelled from the spec: the ROS2 primitive set, §4.1: the ROS1 set
plus `char` / `byte` "treatment equivalent to `uint8`/`int8`"
(`ROS_2_TYPE_TO_RUST_TYPE_MAP` of `gen.rs` is not among the provided
source files). -/
def ros2PrimitiveTypes : List String :=
  ros1PrimitiveTypes ++ ["char", "byte"]

/-- Modelled from the spec: `is_intrinsic_type(version, type)` of
`parse.rs` (not among the provided source files): membership of the bare
type token in the version's primitive set. -/
def isIntrinsicType (version : RosVersion) (t : String) : Bool :=
  match version with
  | .ros1 => ros1PrimitiveTypes.contains t
  | .ros2 => ros2PrimitiveTypes.contains t

/-- Embeds `struct FieldType` (`lib.rs` lines 309-323). -/
structure FieldType where
  package_name : Option String
  source_package : String
  field_type : String
  array_info : Option (Option Nat)
deriving DecidableEq, Repr

/-- Embeds `impl Display for FieldType` (`lib.rs` lines 325-333):
the bare type token with its array suffix. -/
def FieldType.display (ft : FieldType) : String :=
  match ft.array_info with
  | some (some n) => ft.field_type ++ "[" ++ toString n ++ "]"
  | some none => ft.field_type ++ "[]"
  | none => ft.field_type

/-- Embeds `struct FieldInfo` (`lib.rs` lines 336-342); the ROS2-only
default literal is carried as its raw text (`RosLiteral.inner`). -/
structure FieldInfo where
  field_type : FieldType
  field_name : String
  default : Option String := none
deriving DecidableEq, Repr

/-- Embeds `FieldInfo::get_full_name` (`lib.rs` lines 352-361):
`package_name` falling back to `source_package`, joined to the bare type
token with `/`. -/
def FieldInfo.getFullName (f : FieldInfo) : String :=
  (f.field_type.package_name.getD f.field_type.source_package) ++ "/" ++
    f.field_type.field_type

/-- Embeds `struct ConstantInfo` (`lib.rs` lines 365-370); the
`RosLiteral` value is its raw text. -/
structure ConstantInfo where
  constant_type : String
  constant_name : String
  constant_value : String
deriving DecidableEq, Repr

/-- Embeds `ParsedMessageFile` (declared in `parse.rs`; its shape is
fixed by the spec §3 "Parsed message" record and by every use in
`lib.rs`): package name, short name, fields, constants, optional
ROS-version tag, raw source text, and source path. -/
structure ParsedMessageFile where
  name : String
  package : String
  fields : List FieldInfo
  constants : List ConstantInfo
  version : Option RosVersion
  source : String
  path : String := ""
deriving DecidableEq, Repr

/-- Embeds `ParsedMessageFile::get_full_name`: `format!("{package}/{name}")`. -/
def ParsedMessageFile.getFullName (p : ParsedMessageFile) : String :=
  p.package ++ "/" ++ p.name

/-- Embeds `struct MessageFile` (`lib.rs` lines 43-53). -/
structure MessageFile where
  parsed : ParsedMessageFile
  md5sum : String
  definition : String
  is_fixed_length : Bool
deriving DecidableEq, Repr

/-- Embeds `MessageFile::get_full_name` (`lib.rs` lines 76-78). -/
def MessageFile.getFullName (m : MessageFile) : String :=
  m.parsed.package ++ "/" ++ m.parsed.name

/-- The resolved-message graph `BTreeMap<String, MessageFile>`.  Modelled
as an association list with unique keys: the embedded functions use only
key lookup and keyed insertion, and no theorem below depends on the map's
iteration order, so the `BTreeMap` key ordering is reproduced only where
it is observable (the final sort of `into_values`). -/
abbrev MsgGraph : Type := List (String × MessageFile)

/-- Embeds `BTreeMap::get`. -/
def MsgGraph.get (g : MsgGraph) (k : String) : Option MessageFile :=
  ((List.find? (fun e => e.1 == k) g).map (fun e => e.2))

/-- Embeds `BTreeMap::insert`: replaces the value under an existing key,
otherwise adds the binding. -/
def MsgGraph.insert (g : MsgGraph) (k : String) (v : MessageFile) : MsgGraph :=
  if List.any g (fun e => e.1 == k) then
    List.map (fun e => if e.1 == k then (k, v) else e) g
  else
    g ++ [(k, v)]

/-- Length of the underlying association list. -/
def MsgGraph.size (g : MsgGraph) : Nat := List.length g

/-! ## md5sum computation (`MessageFile::compute_md5sum`, lines 100-143)

The Rust functions recurse through the resolved graph; the embedding
threads a fuel argument that each nested `compute_md5sum` call consumes. -/

/-- Embeds the field loop of `MessageFile::_compute_md5sum` (lines
125-140): primitive fields contribute `"{field_type} {field_name}\n"`
(array suffix preserved by `Display`), other fields contribute
`"{sub_md5sum} {field_name}\n"` where the package name is taken from
`package_name` (the `expect` panic on a missing package name is modelled
as `none`) and the sub-md5 is the recursive `compute_md5sum`, supplied
here as the function argument `subMd5`. -/
def md5FieldLinesCore (subMd5 : ParsedMessageFile -> Option String)
    (version : RosVersion) (graph : MsgGraph) : List FieldInfo -> Option String
  | [] => some ""
  | field :: rest =>
    let line? : Option String :=
      if isIntrinsicType version field.field_type.field_type then
        some (field.field_type.display ++ " " ++ field.field_name ++ "\n")
      else
        match field.field_type.package_name with
        | none => none
        | some fieldPackage =>
          match MsgGraph.get graph
              (fieldPackage ++ "/" ++ field.field_type.field_type) with
          | none => none
          | some sub =>
            match subMd5 sub.parsed with
            | none => none
            | some subMd5sum => some (subMd5sum ++ " " ++ field.field_name ++ "\n")
    match line? with
    | none => none
    | some line =>
      match md5FieldLinesCore subMd5 version graph rest with
      | none => none
      | some restStr => some (line ++ restStr)

/-- Embeds `MessageFile::_compute_md5sum` (lines 114-143): one
`"{type} {name}={value}\n"` line per constant, then the field lines,
with `subMd5` standing for the recursive `compute_md5sum`. -/
def computeMd5ContentCore (subMd5 : ParsedMessageFile -> Option String)
    (parsed : ParsedMessageFile) (graph : MsgGraph) : Option String :=
  let constPart := parsed.constants.foldl
    (fun acc c =>
      acc ++ c.constant_type ++ " " ++ c.constant_name ++ "=" ++
        c.constant_value ++ "\n") ""
  match md5FieldLinesCore subMd5 (parsed.version.getD .ros1) graph
      parsed.fields with
  | none => none
  | some fieldPart => some (constPart ++ fieldPart)

/-- Embeds `MessageFile::compute_md5sum` (lines 100-112): the MD5 of the
`trim_end`-ed `_compute_md5sum` content, formatted as lowercase hex.
The recursion through the graph is structural on the fuel. -/
def computeMd5sumF : Nat -> ParsedMessageFile -> MsgGraph -> Option String
  | 0, _, _ => none
  | fuel + 1, parsed, graph =>
    match computeMd5ContentCore (fun p => computeMd5sumF fuel p graph)
        parsed graph with
    | none => none
    | some content => some (md5HexOfString (rustTrimEnd content))

/-- `MessageFile::_compute_md5sum` at a given fuel (the fuel feeds the
nested `compute_md5sum` calls). -/
def computeMd5ContentF (fuel : Nat) (parsed : ParsedMessageFile)
    (graph : MsgGraph) : Option String :=
  computeMd5ContentCore (fun p => computeMd5sumF fuel p graph) parsed graph

/-! ## Unique field types and the expanded definition (lines 146-191) -/

/-- Ordered insertion into a sorted duplicate-free list: the model of
`BTreeSet<String>::insert`.  `Ord String` in Lean is lexicographic on
code points, which coincides with Rust's byte-wise `Ord` on UTF-8. -/
def insertSortedDistinct : List String → String → List String
  | [], s => [s]
  | x :: rest, s =>
    if s == x then x :: rest
    else if compare s x == Ordering.lt then s :: x :: rest
    else x :: insertSortedDistinct rest s

/-- Embeds the field loop of `MessageFile::get_unique_field_types`
(lines 150-161): primitives are skipped; a non-primitive field first
requires its graph entry (`?`), inserts its own full name, then unions
in the recursively collected dependencies (`BTreeSet::append`), with
`recur` standing for the recursive `get_unique_field_types`. -/
def uniqueFieldTypesCore (recur : ParsedMessageFile -> Option (List String))
    (version : RosVersion) (graph : MsgGraph) :
    List FieldInfo -> List String -> Option (List String)
  | [], acc => some acc
  | field :: rest, acc =>
    if isIntrinsicType version field.field_type.field_type then
      uniqueFieldTypesCore recur version graph rest acc
    else
      match MsgGraph.get graph field.getFullName with
      | none => none
      | some sub =>
        let acc1 := insertSortedDistinct acc field.getFullName
        match recur sub.parsed with
        | none => none
        | some subDeps =>
          uniqueFieldTypesCore recur version graph rest
            (subDeps.foldl insertSortedDistinct acc1)

/-- Embeds `MessageFile::get_unique_field_types` (lines 146-163),
returning the sorted set as a sorted duplicate-free list (the
`BTreeSet` iteration order); structural on the fuel. -/
def getUniqueFieldTypesF : Nat -> ParsedMessageFile -> MsgGraph ->
    Option (List String)
  | 0, _, _ => none
  | fuel + 1, parsed, graph =>
    uniqueFieldTypesCore (fun p => getUniqueFieldTypesF fuel p graph)
      (parsed.version.getD .ros1) graph parsed.fields []

/-- The separator literal of `compute_full_definition` (line 174-175):
eighty `=` characters followed by a newline. -/
def eqSeparator : String := String.mk (List.replicate 80 '=') ++ "\n"

/-- Embeds the dependency loop of `MessageFile::compute_full_definition`
(lines 176-187): for each name of the sorted unique set, look the
message up (failure is `None`) and append the separator, the
`MSG: pkg/Name` line and the `trim`-ed stored definition of the
dependency, each `\n`-terminated. -/
def fullDefinitionFold (graph : MsgGraph) :
    List String → String → Option String
  | [], acc => some acc
  | field :: rest, acc =>
    match MsgGraph.get graph field with
    | none => none
    | some sub =>
      fullDefinitionFold graph rest
        (acc ++ eqSeparator ++ "MSG: " ++ sub.getFullName ++ "\n" ++
          rustTrim sub.definition ++ "\n")

/-- Embeds `MessageFile::compute_full_definition` (lines 168-191):
`trim`-ed raw source plus newline, the dependency sections, then
`String::pop` removing the final character. -/
def computeFullDefinitionF (fuel : Nat) (parsed : ParsedMessageFile)
    (graph : MsgGraph) : Option String :=
  match getUniqueFieldTypesF fuel parsed graph with
  | none => none
  | some uniq =>
    match fullDefinitionFold graph uniq (rustTrim parsed.source ++ "\n") with
    | none => none
    | some content => some (String.mk content.data.dropLast)

/-! ## Fixed-length predicate (`determine_if_fixed_length`, lines 193-217) -/

/-- Embeds the field loop of `MessageFile::determine_if_fixed_length`
(lines 197-215), keeping the source's early returns: a fixed-size array
field returns `some true` for the whole message immediately, a
variable-size array returns `some false`; a scalar `string` without a
package returns `some false`; a scalar reference recurses (through
`recur`) and returns `some false` when the referenced message is not
fixed length. -/
def fixedLengthFieldsCore (recur : ParsedMessageFile -> Option Bool)
    (graph : MsgGraph) : List FieldInfo -> Option Bool
  | [] => some true
  | field :: rest =>
    match field.field_type.array_info with
    | some (some _) => some true
    | some none => some false
    | none =>
      match field.field_type.package_name with
      | none =>
        if field.field_type.field_type == "string" then some false
        else fixedLengthFieldsCore recur graph rest
      | some _ =>
        match MsgGraph.get graph field.getFullName with
        | none => none
        | some sub =>
          match recur sub.parsed with
          | none => none
          | some subFixed =>
            if !subFixed then some false
            else fixedLengthFieldsCore recur graph rest

/-- Embeds `MessageFile::determine_if_fixed_length` (lines 193-217);
structural on the fuel. -/
def determineIfFixedLengthF : Nat -> ParsedMessageFile -> MsgGraph -> Option Bool
  | 0, _, _ => none
  | fuel + 1, parsed, graph =>
    fixedLengthFieldsCore (fun p => determineIfFixedLengthF fuel p graph)
      graph parsed.fields

/-- Embeds `MessageFile::resolve` (lines 56-66). -/
def MessageFile.resolveF (fuel : Nat) (parsed : ParsedMessageFile)
    (graph : MsgGraph) : Option MessageFile :=
  match computeMd5sumF fuel parsed graph with
  | none => none
  | some md5sum =>
    match computeFullDefinitionF fuel parsed graph with
    | none => none
    | some definition =>
      match determineIfFixedLengthF fuel parsed graph with
      | none => none
      | some is_fixed_length =>
        some { parsed := parsed, md5sum := md5sum, definition := definition,
               is_fixed_length := is_fixed_length }

/-! ## Services (`ServiceFile`, lines 220-288) -/

/-- Embeds `ParsedServiceFile` (declared in `parse.rs`; shape fixed by
the spec §3 "Resolved service" and every use in `lib.rs`): package,
name, the embedded request and response messages, and the source path. -/
structure ParsedServiceFile where
  name : String
  package : String
  request_type : ParsedMessageFile
  response_type : ParsedMessageFile
  path : String := ""
deriving DecidableEq, Repr

/-- Embeds `struct ServiceFile` (lines 220-226). -/
structure ServiceFile where
  parsed : ParsedServiceFile
  request : MessageFile
  response : MessageFile
  md5sum : String
deriving DecidableEq, Repr

/-- Byte-level MD5 digest formatted as 32 lowercase hex characters
(what one `md5::Context` over these bytes computes). -/
def md5HexBytes (l : List Nat) : String :=
  String.mk ((md5Digest l).flatMap byteToHex)

/-- Embeds `ServiceFile::compute_md5sum` (lines 271-287): the request
and response md5 contents (`_compute_md5sum`, no hashing), each
`trim_end`-ed, fed consecutively into one MD5 context. -/
def serviceMd5sumF (fuel : Nat) (parsed : ParsedServiceFile)
    (graph : MsgGraph) : Option String :=
  match computeMd5ContentF fuel parsed.request_type graph with
  | none => none
  | some requestContent =>
    match computeMd5ContentF fuel parsed.response_type graph with
    | none => none
    | some responseContent =>
      some (md5HexBytes
        (strBytes (rustTrimEnd requestContent) ++
          strBytes (rustTrimEnd responseContent)))

/-- Embeds `ServiceFile::resolve` (lines 229-245). -/
def ServiceFile.resolveF (fuel : Nat) (parsed : ParsedServiceFile)
    (graph : MsgGraph) : Option ServiceFile :=
  match MessageFile.resolveF fuel parsed.request_type graph,
        MessageFile.resolveF fuel parsed.response_type graph with
  | some request, some response =>
    match serviceMd5sumF fuel parsed graph with
    | none => none
    | some md5sum =>
      some { parsed := parsed, request := request, response := response,
             md5sum := md5sum }
  | _, _ => none

/-! ## Dependency resolution (`resolve_dependency_graph`, lines 578-644) -/

/-- Embeds `struct MessageMetadata` (lines 573-576). -/
structure MessageMetadata where
  msg : ParsedMessageFile
  seen_count : Nat
deriving DecidableEq, Repr

/-- Embeds `const MAX_PARSE_ITER_LIMIT: u32 = 2048`. -/
def MAX_PARSE_ITER_LIMIT : Nat := 2048

/-- Embeds the `fully_resolved` closure (lines 592-604): every field is
either a primitive of ROS1 or ROS2 (membership in either type map), or
its full name is already a key of the resolved map. -/
def fullyResolvedCheck (resolved : MsgGraph) (msg : ParsedMessageFile) : Bool :=
  msg.fields.all fun field =>
    let is_ros1_primitive := ros1PrimitiveTypes.contains field.field_type.field_type
    let is_ros2_primitive := ros2PrimitiveTypes.contains field.field_type.field_type
    let is_primitive := is_ros1_primitive || is_ros2_primitive
    if !is_primitive then (MsgGraph.get resolved field.getFullName).isSome
    else true

/-- The two failure shapes of `resolve_dependency_graph`: the
`bail!("Unable to resolve dependencies after reaching search limit...")`
error carrying the names of the messages still in the work queue, and
the `ok_or(Error::new("Failed to correctly resolve message ..."))` error
carrying the offending full name. -/
inductive ResolveErr where
  | unresolvedAfterLimit (names : List String)
  | resolveFailed (name : String)
deriving DecidableEq, Repr

/-- Embeds the `while let Some(...) = unresolved_messages.pop_front()`
loop of `resolve_dependency_graph` (lines 590-628).  One loop iteration:
pop the front, resolve it (inserting into the map) or push it to the
back with its counter bumped, then fail if the popped counter exceeded
`MAX_PARSE_ITER_LIMIT`, reporting the names remaining in the queue.  The
fuel argument counts loop iterations; `none` means fuel ran out (the
caller below provides enough for any input, see
`resolveLoopF_terminates`).  `MessageFile::resolve` is given fuel
`resolved.size + 1`, enough for any recursion through a map the loop
itself built. -/
def resolveLoopF : Nat → List MessageMetadata → MsgGraph →
    Option (Except ResolveErr MsgGraph)
  | 0, _, _ => none
  | _ + 1, [], resolved => some (Except.ok resolved)
  | fuel + 1, { msg := msg, seen_count := seen_count } :: rest, resolved =>
    if fullyResolvedCheck resolved msg then
      match MessageFile.resolveF (MsgGraph.size resolved + 1) msg resolved with
      | none => some (Except.error (ResolveErr.resolveFailed msg.getFullName))
      | some msg_file =>
        let resolved1 := resolved.insert msg_file.getFullName msg_file
        if seen_count > MAX_PARSE_ITER_LIMIT then
          some (Except.error (ResolveErr.unresolvedAfterLimit
            (rest.map (fun item => item.msg.package ++ "/" ++ item.msg.name))))
        else
          resolveLoopF fuel rest resolved1
    else
      let queue1 := rest ++ [{ msg := msg, seen_count := seen_count + 1 }]
      if seen_count > MAX_PARSE_ITER_LIMIT then
        some (Except.error (ResolveErr.unresolvedAfterLimit
          (queue1.map (fun item => item.msg.package ++ "/" ++ item.msg.name))))
      else
        resolveLoopF fuel queue1 resolved

/-- Fuel sufficient for `resolveLoopF` on `n` initial messages: each
message is popped at most `MAX_PARSE_ITER_LIMIT + 2` times (its counter
reaches at most 2049 before the limit check fires), see
`resolveLoopF_terminates`. -/
def resolveFuel (n : Nat) : Nat := n * (MAX_PARSE_ITER_LIMIT + 2) + 1

/-- Embeds the message-resolution phase of `resolve_dependency_graph`
(lines 578-628) at the sufficient fuel: the queue of all input messages
with zero counters, an empty resolved map. -/
def resolveDependencyGraphF (messages : List ParsedMessageFile) :
    Option (Except ResolveErr MsgGraph) :=
  resolveLoopF (resolveFuel messages.length)
    (messages.map (fun msg => { msg := msg, seen_count := 0 })) []

/-- Key-sorted values of the resolved map: `BTreeMap::into_values`
(line 643).  The loop keeps keys unique, so sorting the association
list by key reproduces the `BTreeMap` iteration order. -/
def MsgGraph.intoValues (g : MsgGraph) : List MessageFile :=
  (g.mergeSort (fun a b => !(compare a.1 b.1 == Ordering.gt))).map
    (fun e => e.2)

/-- Embeds the service phase and final shape of
`resolve_dependency_graph` (lines 630-643): each service resolved
against the final map (with the same per-call fuel policy), then sorted
by short name. -/
def resolveDependencyGraphFullF (messages : List ParsedMessageFile)
    (services : List ParsedServiceFile) :
    Option (Except ResolveErr (List MessageFile × List ServiceFile)) :=
  match resolveDependencyGraphF messages with
  | none => none
  | some (Except.error e) => some (Except.error e)
  | some (Except.ok resolved) =>
    let resolvedServices := services.mapM (fun srv =>
      match ServiceFile.resolveF (MsgGraph.size resolved + 1) srv resolved with
      | none => Except.error (ResolveErr.resolveFailed srv.path)
      | some s => Except.ok s)
    match resolvedServices with
    | Except.error e => some (Except.error e)
    | Except.ok ss =>
      some (Except.ok (MsgGraph.intoValues resolved,
        ss.mergeSort (fun a b => !(compare a.parsed.name b.parsed.name == Ordering.gt))))

/-! ## Publisher (`roslibrust/src/ros1/publisher.rs`)

`tcpros::ConnectionHeader` is declared in `tcpros.rs` (not among the
provided source files); its fields are fixed by the construction site in
`Publication::new` (lines 124-133) and by the spec §3 "Connection
header". -/

/-- The connection header record, as constructed at `publisher.rs`
lines 124-133 and as returned by `tcpros::receive_header`. -/
structure ConnectionHeader where
  caller_id : String
  latching : Bool
  msg_definition : String
  md5sum : Option String
  topic : Option String
  topic_type : String
  tcp_nodelay : Bool
  service : Option String
deriving DecidableEq, Repr

/-- One incoming TCP connection as the acceptor sees it: an opaque
socket identity and the outcome of `tcpros::receive_header` on it
(`none` models a header-read error). -/
structure IncomingConn where
  stream : Nat
  header : Option ConnectionHeader
deriving DecidableEq, Repr

/-- Observable wire actions of one acceptor iteration.  The header codec
of the spec (§4.2, §6) can carry an `error` field; the constructor
`sentErrorHeader` is the vocabulary for that — whether the acceptor ever
emits it is decided by the code below. -/
inductive AcceptAct where
  | sentResponseHeader (h : ConnectionHeader)
  | sentLatched (msg : List Nat)
  | sentErrorHeader
  | shutdownStream
deriving DecidableEq, Repr

/-- Embeds the md5 comparison of `Publication::tcp_accept_task`
(lines 291-312): reject only when the incoming header carries an md5sum
that is not `"*"`, the local header carries one, and the two differ.
The symmetric local-`"*"` relaxation is present in the source only as a
commented-out line. -/
def md5Rejected (responding_conn_header : ConnectionHeader)
    (h : ConnectionHeader) : Bool :=
  match h.md5sum with
  | some connection_md5sum =>
    if connection_md5sum != "*" then
      match responding_conn_header.md5sum with
      | some local_md5sum => connection_md5sum != local_md5sum
      | none => false
    else false
  | none => false

/-- Embeds the per-connection body of `Publication::tcp_accept_task`
(lines 268-346): a failed header read shuts the stream down and changes
nothing; an md5 mismatch (per `md5Rejected`) shuts the stream down and
changes nothing; otherwise the local header is written back, the latched
`last_message` (when latching and present) is written — a failure of
that write is ignored — and the stream is pushed onto the
subscriber-stream list. -/
def tcpAcceptStep (responding_conn_header : ConnectionHeader)
    (last_message : Option (List Nat))
    (subscriber_streams : List IncomingConn) (conn : IncomingConn) :
    List IncomingConn × List AcceptAct :=
  match conn.header with
  | none => (subscriber_streams, [AcceptAct.shutdownStream])
  | some h =>
    if md5Rejected responding_conn_header h then
      (subscriber_streams, [AcceptAct.shutdownStream])
    else
      let latchActs :=
        if responding_conn_header.latching then
          match last_message with
          | some m => [AcceptAct.sentLatched m]
          | none => []
        else []
      (subscriber_streams ++ [conn],
        AcceptAct.sentResponseHeader responding_conn_header :: latchActs)

/-- A subscriber socket as the publish task sees it for one batch: an
opaque identity and whether `write_all` of this batch's message on it
succeeds. -/
structure SubscriberStream where
  id : Nat
  write_ok : Bool
deriving DecidableEq, Repr

/-- Embeds the failure-collecting write loop of `Publication::publish_task`
(lines 216-222): enumerate the streams, attempt the write on each, and
record the index of each failing stream, in enumeration order. -/
def streamsToRemoveAux : List SubscriberStream → Nat → List Nat
  | [], _ => []
  | s :: rest, idx =>
    if s.write_ok then streamsToRemoveAux rest (idx + 1)
    else idx :: streamsToRemoveAux rest (idx + 1)

/-- Embeds the removal loop of `Publication::publish_task` (lines
226-230): for the `removed_cnt`-th recorded index `stream_idx`, remove
position `stream_idx - removed_cnt` from the current vector. -/
def removeCollected : List SubscriberStream → List Nat → Nat →
    List SubscriberStream
  | streams, [], _ => streams
  | streams, stream_idx :: rest, removed_cnt =>
    removeCollected (streams.eraseIdx (stream_idx - removed_cnt)) rest
      (removed_cnt + 1)

/-- Embeds one `Some(msg_to_publish)` iteration of
`Publication::publish_task` (lines 211-234): write to every stream in
order (the returned trace lists the attempted stream ids in order),
remove the recorded failures after the batch, then store the message as
`last_message`.  Result: updated stream list, write trace, updated
`last_message`. -/
def publishBatchStep (subscriber_streams : List SubscriberStream)
    (msg_to_publish : List Nat) (last_message : Option (List Nat)) :
    List SubscriberStream × List Nat × Option (List Nat) :=
  let streams_to_remove := streamsToRemoveAux subscriber_streams 0
  let streams1 := removeCollected subscriber_streams streams_to_remove 0
  (streams1, subscriber_streams.map (fun s => s.id), some msg_to_publish)

/-! ## Specification-side definitions

These definitions follow the words of the specification / claims and are
compared with the source-derived definitions above; they are the second
leg of the refinement claims. -/

/-- Follows the spec's words (§4.1 "Fixed-length predicate"): a field
is fixed-length unless it is a variable-length array; its element type
must be `string`-free — a primitive other than `string`, or a
recursively fixed-length sub-message (through `recur`).  Fixed arrays
`[N]` are fixed-length iff their element type is. -/
def specFieldFixedCore (recur : ParsedMessageFile -> Option Bool)
    (graph : MsgGraph) (field : FieldInfo) : Option Bool :=
  match field.field_type.array_info with
  | some none => some false
  | _ =>
    match field.field_type.package_name with
    | none => some (!(field.field_type.field_type == "string"))
    | some _ =>
      match MsgGraph.get graph field.getFullName with
      | none => none
      | some sub => recur sub.parsed

/-- All fields fixed-length, checking the remaining fields after each. -/
def specFieldsFixedCore (recur : ParsedMessageFile -> Option Bool)
    (graph : MsgGraph) : List FieldInfo -> Option Bool
  | [] => some true
  | field :: rest =>
    match specFieldFixedCore recur graph field with
    | none => none
    | some ok =>
      match specFieldsFixedCore recur graph rest with
      | none => none
      | some restOk => some (ok && restOk)

/-- Follows the spec's words: true iff no descendant field is a
variable-length array or a `string`; structural on the fuel. -/
def specIsFixedLength : Nat -> ParsedMessageFile -> MsgGraph -> Option Bool
  | 0, _, _ => none
  | fuel + 1, parsed, graph =>
    specFieldsFixedCore (fun p => specIsFixedLength fuel p graph)
      graph parsed.fields

/-- Follows the claim's words (C3): remove exactly one trailing newline,
when there is one. -/
def trimOneTrailingNewline (s : String) : String :=
  if s.data.getLast? == some '\n' then String.mk s.data.dropLast else s

/-- Follows the claim's words (C3), per-field lines: `TYPE NAME` (array
suffix preserved) for a primitive field, `SUBMSG_MD5 NAME` with the
recursively computed sub-message md5sum otherwise. -/
def specMd5FieldLines (fuel : Nat) (version : RosVersion) (graph : MsgGraph) :
    List FieldInfo → Option (List String)
  | [] => some []
  | field :: rest =>
    let line? : Option String :=
      if isIntrinsicType version field.field_type.field_type then
        some (field.field_type.display ++ " " ++ field.field_name)
      else
        match field.field_type.package_name with
        | none => none
        | some fieldPackage =>
          match MsgGraph.get graph
              (fieldPackage ++ "/" ++ field.field_type.field_type) with
          | none => none
          | some sub =>
            match computeMd5sumF fuel sub.parsed graph with
            | none => none
            | some subMd5 => some (subMd5 ++ " " ++ field.field_name)
    match line? with
    | none => none
    | some line =>
      match specMd5FieldLines fuel version graph rest with
      | none => none
      | some restLines => some (line :: restLines)

/-- Follows the claim's words (C3): the md5 text as a list of lines —
one `TYPE NAME=VALUE` line per constant, then one line per field in
source order. -/
def specMd5Lines (fuel : Nat) (parsed : ParsedMessageFile)
    (graph : MsgGraph) : Option (List String) :=
  let constLines := parsed.constants.map (fun c =>
    c.constant_type ++ " " ++ c.constant_name ++ "=" ++ c.constant_value)
  match specMd5FieldLines fuel (parsed.version.getD .ros1) graph
      parsed.fields with
  | none => none
  | some fieldLines => some (constLines ++ fieldLines)

/-- Follows the claim's words (C2 / spec §4.1 "Expanded definition"):
M's raw source right-trimmed with a single trailing newline, then for
each transitively referenced non-primitive type in sorted order a
separator line of eighty `=`, a `MSG: pkg/Name` line, and that
sub-message's RAW SOURCE right-trimmed, with the final newline stripped
from the whole string. -/
def specExpandedDefinition (fuel : Nat) (parsed : ParsedMessageFile)
    (graph : MsgGraph) : Option String :=
  match getUniqueFieldTypesF fuel parsed graph with
  | none => none
  | some uniq =>
    let dep? : String → Option String := fun name =>
      match MsgGraph.get graph name with
      | none => none
      | some sub =>
        some (eqSeparator ++ "MSG: " ++ sub.getFullName ++ "\n" ++
          rustTrimEnd sub.parsed.source ++ "\n")
    match uniq.mapM dep? with
    | none => none
    | some sections =>
      some (String.mk
        ((rustTrimEnd parsed.source ++ "\n" ++ String.join sections)).data.dropLast)

/-! ## Concrete instances used by the claim theorems

`FieldType`, `FieldInfo`, `ParsedMessageFile` values are given by
anonymous constructors in declaration-order of their fields:
`FieldType` is `⟨package_name, source_package, field_type, array_info⟩`,
`FieldInfo` is `⟨field_type, field_name, default⟩`, and
`ParsedMessageFile` is
`⟨name, package, fields, constants, version, source, path⟩`. -/

/-- A field of the given package-qualification, bare type, array
specifier and name, in source package `test`. -/
def mkField (pkg : Option String) (t : String) (arr : Option (Option Nat))
    (n : String) : FieldInfo :=
  ⟨⟨pkg, "test", t, arr⟩, n, none⟩

/-- A message whose single field is the fixed-size array `string[3]`. -/
def fixedArrStringMsg : ParsedMessageFile :=
  ⟨"Cex", "test", [mkField none "string" (some (some 3)) "names"], [],
    some RosVersion.ros1, "string[3] names", ""⟩

/-- A message with a fixed-size `uint32[2]` array followed by a
`string` field. -/
def fixedArrThenStringMsg : ParsedMessageFile :=
  ⟨"Cex2", "test",
    [mkField none "uint32" (some (some 2)) "a", mkField none "string" none "s"],
    [], some RosVersion.ros1, "uint32[2] a\nstring s", ""⟩

/-- A message whose only content is a string constant whose literal
value ends in a space. -/
def trailingSpaceConstMsg : ParsedMessageFile :=
  ⟨"C", "test", [], [⟨"string", "A", "x "⟩], some RosVersion.ros1,
    "string A=x ", ""⟩

/-- Placeholder `MessageFile` for `Option.getD`; never the value that is
actually selected in the definitions below (the resolutions succeed). -/
def dummyMessageFile : MessageFile :=
  ⟨⟨"", "", [], [], none, "", ""⟩, "", "", true⟩

/-- Leaf message `test/B` with one primitive field. -/
def msgB : ParsedMessageFile :=
  ⟨"B", "test", [mkField none "int32" none "x"], [], some RosVersion.ros1,
    "int32 x", ""⟩

/-- Message `test/A` referencing `test/B`. -/
def msgA : ParsedMessageFile :=
  ⟨"A", "test", [mkField (some "test") "B" none "b"], [],
    some RosVersion.ros1, "B b", ""⟩

/-- Message `test/M` referencing `test/A` (a two-level dependency chain
`M -> A -> B`). -/
def msgM : ParsedMessageFile :=
  ⟨"M", "test", [mkField (some "test") "A" none "a"], [],
    some RosVersion.ros1, "A a", ""⟩

/-- `test/B` resolved against the empty graph. -/
def fileB : MessageFile := (MessageFile.resolveF 1 msgB []).getD dummyMessageFile

/-- Graph holding `test/B`. -/
def graphB : MsgGraph := MsgGraph.insert [] fileB.getFullName fileB

/-- `test/A` resolved against `graphB`. -/
def fileA : MessageFile :=
  (MessageFile.resolveF 2 msgA graphB).getD dummyMessageFile

/-- Graph holding `test/B` and `test/A`. -/
def graphAB : MsgGraph := MsgGraph.insert graphB fileA.getFullName fileA


/-- A publisher-side responding header with the given md5 and latching
flag, topic `/t`, type `test/M`. -/
def mkPubHeader (md5 : Option String) (latch : Bool) : ConnectionHeader :=
  ⟨"/talker", latch, "defn", md5, some "/t", "test/M", false, none⟩

/-- A subscriber-side header carrying the given md5. -/
def mkSubHeader (md5 : Option String) : ConnectionHeader :=
  ⟨"/listener", false, "", md5, some "/t", "test/M", true, none⟩

/-- Concatenation of lines, each terminated by a newline: the text whose
lines are the given list. -/
def unlines : List String -> String
  | [] => ""
  | l :: ls => l ++ "\n" ++ unlines ls

/-- A service whose request and response are both `msgB`. -/
def srvBB : ParsedServiceFile :=
  ⟨"Srv", "test", msgB, msgB, ""⟩

/-- A topological presentation of a message set: every non-primitive
field of the `k`-th message references the full name of an earlier
message.  The claim's "acyclic input set" is a set admitting such a
presentation up to permutation (a closed set with no dependency
cycle). -/
def TopoOrdered (l : List ParsedMessageFile) : Prop :=
  ∀ k msg, l.get? k = some msg → ∀ field ∈ msg.fields,
    (ros1PrimitiveTypes.contains field.field_type.field_type ||
      ros2PrimitiveTypes.contains field.field_type.field_type) = false →
    ∃ j, j < k ∧ ∃ m2, l.get? j = some m2 ∧
      m2.getFullName = field.getFullName

/-- Name of the `i`-th chain message: `m` followed by `i` letters `a`. -/
def chainName (i : Nat) : String := String.mk ('m' :: List.replicate i 'a')

/-- Full name `p/<chainName i>` of the `i`-th chain message. -/
def chainFull (i : Nat) : String := "p" ++ "/" ++ chainName i

/-- The `i`-th message of a linear dependency chain in package `p`:
message `0` has no fields, message `i+1` has one scalar field of
message type `i`. -/
def chainMsg : Nat -> ParsedMessageFile
  | 0 => ⟨chainName 0, "p", [], [], some RosVersion.ros1, "s", ""⟩
  | i + 1 =>
    ⟨chainName (i + 1), "p",
      [⟨⟨some "p", "p", chainName i, none⟩, "x", none⟩], [],
      some RosVersion.ros1, "s", ""⟩

/-- The chain input in worst-case order, deepest message first:
`[chainMsg d, ..., chainMsg 0]`. -/
def chainInput (d : Nat) : List ParsedMessageFile :=
  (List.range (d + 1)).reverse.map chainMsg

/-- Resolved-map state after the first `p` chain messages have been
resolved, built with the loop's own insertion and fuel policy. -/
def chainState : Nat -> MsgGraph
  | 0 => []
  | p + 1 =>
    let g := chainState p
    MsgGraph.insert g (chainMsg p).getFullName
      ((MessageFile.resolveF (MsgGraph.size g + 1) (chainMsg p) g).getD
        dummyMessageFile)

/-- The resolved `MessageFile` of the `p`-th chain message. -/
def chainFile (p : Nat) : MessageFile :=
  (MessageFile.resolveF (MsgGraph.size (chainState p) + 1) (chainMsg p)
    (chainState p)).getD dummyMessageFile

/-- Work-queue segment `[{chainMsg (p+n-1), c}, ..., {chainMsg p, c}]`:
`n` consecutive chain messages in descending index order, all with seen
counter `c`. -/
def descSeg : Nat -> Nat -> Nat -> List MessageMetadata
  | 0, _, _ => []
  | n + 1, p, c => ⟨chainMsg (p + n), c⟩ :: descSeg n p c

/-- Loop-termination measure: each queue item can be popped at most
`MAX_PARSE_ITER_LIMIT + 2 - seen_count` more times. -/
def queueMeasure (q : List MessageMetadata) : Nat :=
  (q.map (fun item => (MAX_PARSE_ITER_LIMIT + 2) - item.seen_count)).sum

/-! ## Theorems -/

set_option maxRecDepth 16384

/-- MD5 sanity check against the RFC 1321 test suite. -/
theorem md5Hex_rfc1321_abc :
    md5HexOfString "abc" = "900150983cd24fb0d6963f7d28e17f72" := by decide

/-- C10.  Counterexample: for `t = {secs: 0, nsecs: 0}` and
`d = {sec: 0, nsec: -500_000_000}` the exact integer sum of seconds
(with nanosecond carry) is `-1`, i.e. negative, yet `t + d` is
`{secs: 0, nsecs: 500_000_000}`, not the clamped `{secs: 0, nsecs: 0}`:
the code computes the carry with truncating division while taking the
nanosecond remainder with `rem_euclid`, so sums strictly between -1 s
and 0 s are not clamped. -/
theorem c10_counterexample :
    exactSecondsSum ⟨0, 0⟩ ⟨0, -500000000⟩ = -1 ∧
    timeAddDuration ⟨0, 0⟩ ⟨0, -500000000⟩ = ⟨0, 500000000⟩ ∧
    timeAddDuration ⟨0, 0⟩ ⟨0, -500000000⟩ ≠ ⟨0, 0⟩ := by
  refine ⟨by decide, by decide, by decide⟩

/-- C10 (amended).  For every Time `t` and Duration `d`, the nsecs of
`t + d` lies in `[0, 1_000_000_000)`; and whenever the seconds value
that the code computes — `t.secs + d.sec` plus the nanosecond carry
taken with truncating division — is negative, the result is clamped to
`{secs: 0, nsecs: 0}` rather than wrapping or erroring. -/
theorem c10_time_add_clamped (t : RosTime) (d : RosDuration) :
    (timeAddDuration t d).nsecs < 1000000000 ∧
    ((t.secs : Int) + d.sec + ((t.nsecs : Int) + d.nsec).tdiv 1000000000 < 0 →
      timeAddDuration t d = ⟨0, 0⟩) := by
  unfold timeAddDuration
  dsimp only
  split
  · exact ⟨by norm_num, fun _ => rfl⟩
  · rename_i hnot
    constructor
    · have h1 : (0 : Int) ≤ ((t.nsecs : Int) + d.nsec).emod 1000000000 :=
        Int.emod_nonneg _ (by norm_num)
      have h2 : ((t.nsecs : Int) + d.nsec).emod 1000000000 < 1000000000 :=
        Int.emod_lt_of_pos _ (by norm_num)
      simp only []
      omega
    · intro hneg
      exact absurd hneg hnot

/-- C10 witness: the amended theorem applied at
`t = {secs: 0, nsecs: 0}`, `d = {sec: -1, nsec: 0}`. -/
theorem c10_time_add_clamped_witness :
    (timeAddDuration ⟨0, 0⟩ ⟨-1, 0⟩).nsecs < 1000000000 ∧
    timeAddDuration ⟨0, 0⟩ ⟨-1, 0⟩ = ⟨0, 0⟩ :=
  ⟨(c10_time_add_clamped ⟨0, 0⟩ ⟨-1, 0⟩).1,
    (c10_time_add_clamped ⟨0, 0⟩ ⟨-1, 0⟩).2 (by decide)⟩

/-- C1.  The code evaluated at the failing inputs: a message whose only
field is the fixed-size array `string[3]` is reported fixed-length by
`determine_if_fixed_length` (`some true`) although its element type
`string` is variable-length, and a message `uint32[2] a; string s` is
also reported fixed-length although the later `string` field should
still be checked — in both cases the spec's predicate (no descendant
variable array or `string`) is `false`.  The code returns `Some(true)`
for the whole message as soon as it sees any fixed-size array field. -/
theorem c1_fixed_length_code_bug :
    determineIfFixedLengthF 1 fixedArrStringMsg [] = some true ∧
    specIsFixedLength 1 fixedArrStringMsg [] = some false ∧
    determineIfFixedLengthF 1 fixedArrThenStringMsg [] = some true ∧
    specIsFixedLength 1 fixedArrThenStringMsg [] = some false := by
  refine ⟨by decide, by decide, by decide, by decide⟩

/-- C2.  The code evaluated at the failing input: for the two-level
chain `test/M -> test/A -> test/B`, `compute_full_definition` appends
the stored (recursively expanded) definition of each dependency, so the
`test/A` section itself contains a nested separator and `MSG: test/B`
block and `test/B`'s source appears twice; the claim (and the cited
`gentools` reference) expect each dependency's raw source, giving the
flat second string.  The two disagree. -/
theorem c2_full_definition_code_bug :
    computeFullDefinitionF 3 msgM graphAB =
      some ("A a\n" ++ eqSeparator ++ "MSG: test/A\nB b\n" ++ eqSeparator ++
        "MSG: test/B\nint32 x\n" ++ eqSeparator ++ "MSG: test/B\nint32 x") ∧
    specExpandedDefinition 3 msgM graphAB =
      some ("A a\n" ++ eqSeparator ++ "MSG: test/A\nB b\n" ++ eqSeparator ++
        "MSG: test/B\nint32 x") ∧
    computeFullDefinitionF 3 msgM graphAB ≠ specExpandedDefinition 3 msgM graphAB := by
  refine ⟨by decide, by decide, by decide⟩

/-- C3.  Counterexample: for a message whose only content is the
constant `string A=x ` (value with a trailing space), the md5 text is
`"string A=x \n"`; trimming exactly one trailing newline leaves
`"string A=x "` whose digest is `7489d3ee96780081f2738b62ba5e8b50`, but
the code's `trim_end` also removes the trailing space and hashes
`"string A=x"`, giving `8c2e6f931129155f561b8d3b5dea211f`. -/
theorem c3_counterexample :
    computeMd5sumF 1 trailingSpaceConstMsg [] =
      some "8c2e6f931129155f561b8d3b5dea211f" ∧
    specMd5Lines 1 trailingSpaceConstMsg [] = some ["string A=x "] ∧
    unlines ["string A=x "] = "string A=x \n" ∧
    md5HexOfString (trimOneTrailingNewline "string A=x \n") =
      "7489d3ee96780081f2738b62ba5e8b50" ∧
    computeMd5sumF 1 trailingSpaceConstMsg [] ≠
      some (md5HexOfString (trimOneTrailingNewline
        (unlines ["string A=x "]))) := by
  refine ⟨by decide, by decide, by decide, by decide, by decide⟩

/-- C4.  Counterexample: a publication declaring md5sum `"*"` rejects a
subscriber carrying the concrete md5sum `"abc"` — the socket is shut
down and the fan-out list stays empty — so the wildcard is not honored
in the publisher-declares-`"*"` direction (that comparison is only a
commented-out line in the source). -/
theorem c4_counterexample :
    tcpAcceptStep (mkPubHeader (some "*") false) none []
      ⟨7, some (mkSubHeader (some "abc"))⟩ =
      ([], [AcceptAct.shutdownStream]) := by decide

/-- C4 (amended).  The md5 wildcard is honored only in the subscriber
direction: an incoming header with md5sum `"*"` is always accepted (the
socket is appended to the fan-out list regardless of the publication's
type), while a publication declaring `"*"` rejects every incoming
concrete md5sum different from `"*"`. -/
theorem c4_wildcard_one_direction (resp : ConnectionHeader)
    (last : Option (List Nat)) (streams : List IncomingConn)
    (conn : IncomingConn) (h : ConnectionHeader)
    (hconn : conn.header = some h) :
    (h.md5sum = some "*" →
      (tcpAcceptStep resp last streams conn).1 = streams ++ [conn]) ∧
    (resp.md5sum = some "*" → ∀ m, h.md5sum = some m → m ≠ "*" →
      tcpAcceptStep resp last streams conn =
        (streams, [AcceptAct.shutdownStream])) := by
  constructor
  · intro hm
    simp [tcpAcceptStep, hconn, md5Rejected, hm]
  · intro hr m hm hne
    have hrej : md5Rejected resp h = true := by
      simp [md5Rejected, hm, hr]
      intro hcontra
      exact absurd hcontra hne
    simp [tcpAcceptStep, hconn, hrej]

/-- C4 witness: the amended theorem applied at a subscriber sending
`"*"` against a publisher with md5 `"x"`, and at a subscriber sending
`"abc"` against a publisher declaring `"*"`. -/
theorem c4_wildcard_one_direction_witness :
    (tcpAcceptStep (mkPubHeader (some "x") false) none []
      ⟨1, some (mkSubHeader (some "*"))⟩).1 =
      [] ++ [⟨1, some (mkSubHeader (some "*"))⟩] ∧
    tcpAcceptStep (mkPubHeader (some "*") false) none []
      ⟨2, some (mkSubHeader (some "abc"))⟩ =
      ([], [AcceptAct.shutdownStream]) :=
  ⟨(c4_wildcard_one_direction (mkPubHeader (some "x") false) none []
      ⟨1, some (mkSubHeader (some "*"))⟩ (mkSubHeader (some "*")) rfl).1 rfl,
    (c4_wildcard_one_direction (mkPubHeader (some "*") false) none []
      ⟨2, some (mkSubHeader (some "abc"))⟩ (mkSubHeader (some "abc")) rfl).2
      rfl "abc" rfl (by decide)⟩

/-- C5.  Counterexample: on an incoming md5sum (`"beef"`) that is
neither `"*"` nor equal to the local md5sum (`"d41d"`), the acceptor
only shuts the socket down — the action trace is `[shutdownStream]`,
which contains no error-header write — so the claim's "writes an error
header" is false (the list is unchanged, as the claim also says). -/
theorem c5_counterexample :
    tcpAcceptStep (mkPubHeader (some "d41d") false) none []
      ⟨7, some (mkSubHeader (some "beef"))⟩ =
      ([], [AcceptAct.shutdownStream]) ∧
    AcceptAct.sentErrorHeader ∉
      (tcpAcceptStep (mkPubHeader (some "d41d") false) none []
        ⟨7, some (mkSubHeader (some "beef"))⟩).2 := by
  refine ⟨by decide, by decide⟩

/-- C5 (amended).  For every incoming connection whose header carries an
md5sum that is neither `"*"` nor byte-equal to the publication's local
md5sum, the acceptor closes the socket — without writing an error
header, which the acceptor never writes — and does not add it, so the
subscriber-socket list is unchanged by a rejected connection and after
every acceptor step contains only sockets that completed a compatible
header exchange. -/
theorem c5_mismatch_rejected_no_error_header (resp : ConnectionHeader)
    (last : Option (List Nat)) (streams : List IncomingConn)
    (conn : IncomingConn) :
    (∀ h m lm, conn.header = some h → h.md5sum = some m → m ≠ "*" →
      resp.md5sum = some lm → m ≠ lm →
      tcpAcceptStep resp last streams conn =
        (streams, [AcceptAct.shutdownStream])) ∧
    AcceptAct.sentErrorHeader ∉ (tcpAcceptStep resp last streams conn).2 ∧
    (∀ s, s ∈ (tcpAcceptStep resp last streams conn).1 →
      s ∈ streams ∨
        (s = conn ∧ ∃ h, conn.header = some h ∧ md5Rejected resp h = false)) := by
  refine ⟨?_, ?_, ?_⟩
  · intro h m lm hconn hm hne hl hnl
    have hrej : md5Rejected resp h = true := by
      simp [md5Rejected, hm, hl]
      constructor
      · intro hcontra; exact absurd hcontra hne
      · intro hcontra; exact absurd hcontra hnl
    simp [tcpAcceptStep, hconn, hrej]
  · unfold tcpAcceptStep
    match hc : conn.header with
    | none => simp
    | some h =>
      by_cases hrej : md5Rejected resp h
      · simp [hrej]
      · simp only [hrej]
        simp only [Bool.false_eq_true, if_false]
        by_cases hl : resp.latching
        · cases last with
          | none => simp [hl]
          | some m => simp [hl]
        · simp [hl]
  · intro s hs
    unfold tcpAcceptStep at hs
    match hc : conn.header with
    | none => rw [hc] at hs; exact Or.inl hs
    | some h =>
      rw [hc] at hs
      dsimp only at hs
      by_cases hrej : md5Rejected resp h
      · rw [if_pos hrej] at hs; exact Or.inl hs
      · rw [if_neg hrej] at hs
        simp only [List.mem_append, List.mem_singleton] at hs
        cases hs with
        | inl hmem => exact Or.inl hmem
        | inr heq =>
          exact Or.inr ⟨heq, h, rfl, by simpa using hrej⟩

/-- C5 witness: the amended theorem applied at a latched publication
with one already-accepted socket and an incoming mismatching md5sum. -/
theorem c5_mismatch_rejected_no_error_header_witness :
    tcpAcceptStep (mkPubHeader (some "d41d") true) (some [9])
      [⟨1, some (mkSubHeader (some "*"))⟩] ⟨2, some (mkSubHeader (some "beef"))⟩ =
      ([⟨1, some (mkSubHeader (some "*"))⟩], [AcceptAct.shutdownStream]) ∧
    AcceptAct.sentErrorHeader ∉
      (tcpAcceptStep (mkPubHeader (some "d41d") true) (some [9])
        [⟨1, some (mkSubHeader (some "*"))⟩]
        ⟨2, some (mkSubHeader (some "beef"))⟩).2 :=
  ⟨(c5_mismatch_rejected_no_error_header (mkPubHeader (some "d41d") true)
      (some [9]) [⟨1, some (mkSubHeader (some "*"))⟩]
      ⟨2, some (mkSubHeader (some "beef"))⟩).1
      (mkSubHeader (some "beef")) "beef" "d41d" rfl rfl (by decide) rfl
      (by decide),
    (c5_mismatch_rejected_no_error_header (mkPubHeader (some "d41d") true)
      (some [9]) [⟨1, some (mkSubHeader (some "*"))⟩]
      ⟨2, some (mkSubHeader (some "beef"))⟩).2.1⟩

/-- C9.  For every incoming connection whose header carries no md5sum at
all, the acceptor accepts: the md5 check is skipped, the publication's
own header is written back first, and the socket is appended to the
fan-out list. -/
theorem c9_absent_md5_accepted (resp : ConnectionHeader)
    (last : Option (List Nat)) (streams : List IncomingConn)
    (conn : IncomingConn) (h : ConnectionHeader)
    (hconn : conn.header = some h) (hmd5 : h.md5sum = none) :
    (tcpAcceptStep resp last streams conn).1 = streams ++ [conn] ∧
    (tcpAcceptStep resp last streams conn).2.head? =
      some (AcceptAct.sentResponseHeader resp) := by
  have hrej : md5Rejected resp h = false := by simp [md5Rejected, hmd5]
  constructor
  · simp [tcpAcceptStep, hconn, hrej]
  · simp [tcpAcceptStep, hconn, hrej]

/-- C9 witness: the theorem applied at a concrete publisher header and a
subscriber header without an md5sum. -/
theorem c9_absent_md5_accepted_witness :
    (tcpAcceptStep (mkPubHeader (some "d41d") false) none []
      ⟨3, some (mkSubHeader none)⟩).1 = [] ++ [⟨3, some (mkSubHeader none)⟩] ∧
    (tcpAcceptStep (mkPubHeader (some "d41d") false) none []
      ⟨3, some (mkSubHeader none)⟩).2.head? =
      some (AcceptAct.sentResponseHeader (mkPubHeader (some "d41d") false)) :=
  c9_absent_md5_accepted (mkPubHeader (some "d41d") false) none []
    ⟨3, some (mkSubHeader none)⟩ (mkSubHeader none) rfl rfl

/-- Removing at the length of the left part of an append removes the
head of the right part. -/
theorem eraseIdx_append_left_length (kept : List SubscriberStream)
    (s : SubscriberStream) (t : List SubscriberStream) :
    (kept ++ s :: t).eraseIdx kept.length = kept ++ t := by
  induction kept with
  | nil => rfl
  | cons a as ih => simp [List.eraseIdx, ih]

/-- The index-shift-corrected removal of the recorded failure indices
(absolute indices starting at `kept.length + c`, with `c` removals
already performed) removes exactly the failing streams. -/
theorem removeCollected_filter (t kept : List SubscriberStream) (c n : Nat)
    (hn : n = kept.length + c) :
    removeCollected (kept ++ t) (streamsToRemoveAux t n) c =
      kept ++ t.filter (fun s => s.write_ok) := by
  induction t generalizing kept c n with
  | nil => simp [streamsToRemoveAux, removeCollected]
  | cons s t' ih =>
    by_cases hok : s.write_ok
    · have hrec : streamsToRemoveAux (s :: t') n = streamsToRemoveAux t' (n + 1) := by
        simp [streamsToRemoveAux, hok]
      rw [hrec]
      have happ : kept ++ s :: t' = (kept ++ [s]) ++ t' := by simp
      rw [happ]
      have := ih (kept ++ [s]) c (n + 1) (by simp; omega)
      rw [this]
      simp [List.filter, hok]
    · have hrec : streamsToRemoveAux (s :: t') n =
          n :: streamsToRemoveAux t' (n + 1) := by
        simp [streamsToRemoveAux, hok]
      rw [hrec]
      show removeCollected ((kept ++ s :: t').eraseIdx (n - c))
        (streamsToRemoveAux t' (n + 1)) (c + 1) = _
      have hnc : n - c = kept.length := by omega
      rw [hnc, eraseIdx_append_left_length]
      have := ih kept (c + 1) (n + 1) (by omega)
      rw [this]
      simp [List.filter, hok]

/-- C8.  For every fan-out batch: the message is written to every socket
of the current list in list order (the trace is the id of each stream in
order), the post-batch list is the previous list with exactly the
failing streams removed and the surviving order preserved (the
index-shift-corrected removal equals a filter on write success), and the
message is stored as `last_message`, overwriting any previous value. -/
theorem c8_publish_batch (streams : List SubscriberStream)
    (msg : List Nat) (last : Option (List Nat)) :
    publishBatchStep streams msg last =
      (streams.filter (fun s => s.write_ok),
        streams.map (fun s => s.id), some msg) := by
  unfold publishBatchStep
  dsimp only
  have := removeCollected_filter streams [] 0 0 rfl
  simp only [List.nil_append] at this
  rw [this]

/-- Newline-terminated concatenation distributes over list append. -/
theorem unlines_append (a b : List String) :
    unlines (a ++ b) = unlines a ++ unlines b := by
  induction a with
  | nil => simp [unlines, String.empty_append]
  | cons x xs ih =>
    simp [unlines, ih, String.append_assoc]

/-- The field lines built by `_compute_md5sum` are the newline-joined
spec lines (claim C3's field lines). -/
theorem md5FieldLinesCore_eq_spec (fuel : Nat) (version : RosVersion)
    (graph : MsgGraph) (fl : List FieldInfo) :
    md5FieldLinesCore (fun p => computeMd5sumF fuel p graph) version graph fl =
      (specMd5FieldLines fuel version graph fl).map unlines := by
  induction fl with
  | nil => simp [md5FieldLinesCore, specMd5FieldLines, unlines]
  | cons field rest ih =>
    simp only [md5FieldLinesCore, specMd5FieldLines]
    by_cases hint : isIntrinsicType version field.field_type.field_type
    · simp only [hint, if_true, ih]
      cases hrest : specMd5FieldLines fuel version graph rest with
      | none => simp
      | some restLines =>
        simp [unlines, String.append_assoc]
    · simp only [hint, if_false]
      cases hpkg : field.field_type.package_name with
      | none => simp
      | some fieldPackage =>
        cases hget : MsgGraph.get graph
            (fieldPackage ++ "/" ++ field.field_type.field_type) with
        | none => simp [hget]
        | some sub =>
          cases hmd5 : computeMd5sumF fuel sub.parsed graph with
          | none => simp [hget, hmd5]
          | some subMd5sum =>
            simp only [hget, hmd5, ih]
            cases hrest : specMd5FieldLines fuel version graph rest with
            | none => simp
            | some restLines =>
              simp [unlines, String.append_assoc]

/-- The constant prefix built by `_compute_md5sum`'s fold is the
newline-joined constant lines of claim C3. -/
theorem constFold_eq_unlines (l : List ConstantInfo) (acc : String) :
    l.foldl (fun acc c =>
        acc ++ c.constant_type ++ " " ++ c.constant_name ++ "=" ++
          c.constant_value ++ "\n") acc =
      acc ++ unlines (l.map (fun c =>
        c.constant_type ++ " " ++ c.constant_name ++ "=" ++ c.constant_value)) := by
  induction l generalizing acc with
  | nil => simp [unlines, String.append_empty]
  | cons c cs ih =>
    rw [List.foldl_cons, ih]
    simp [unlines, String.append_assoc]

/-- The md5 content of `_compute_md5sum` is exactly the newline-joined
line list of claim C3. -/
theorem computeMd5ContentF_eq_unlines (fuel : Nat)
    (parsed : ParsedMessageFile) (graph : MsgGraph) (lines : List String)
    (h : specMd5Lines fuel parsed graph = some lines) :
    computeMd5ContentF fuel parsed graph = some (unlines lines) := by
  simp only [specMd5Lines] at h
  simp only [computeMd5ContentF, computeMd5ContentCore]
  rw [md5FieldLinesCore_eq_spec]
  cases hfl : specMd5FieldLines fuel (parsed.version.getD .ros1) graph
      parsed.fields with
  | none => rw [hfl] at h; simp at h
  | some fieldLines =>
    rw [hfl] at h
    simp only [Option.some.injEq] at h
    subst h
    show some _ = _
    rw [constFold_eq_unlines, String.empty_append, unlines_append]

/-- C3 (amended).  For every resolved message, md5sum is the
32-lowercase-hex MD5 digest of the text built by emitting one
`TYPE NAME=VALUE` line per constant, then one line per field in source
order — `TYPE NAME` with the array suffix preserved when the field type
is primitive, `SUBMSG_MD5 NAME` with the recursively computed
sub-message md5sum otherwise — with ALL trailing whitespace trimmed
(`trim_end`) from the accumulated text before hashing (not exactly one
trailing newline: a constant value ending in whitespace loses it too,
see the counterexample). -/
theorem c3_md5sum_of_lines (fuel : Nat) (parsed : ParsedMessageFile)
    (graph : MsgGraph) (lines : List String)
    (h : specMd5Lines fuel parsed graph = some lines) :
    computeMd5sumF (fuel + 1) parsed graph =
      some (md5HexOfString (rustTrimEnd (unlines lines))) := by
  have hc : computeMd5ContentCore (fun p => computeMd5sumF fuel p graph)
      parsed graph = some (unlines lines) :=
    computeMd5ContentF_eq_unlines fuel parsed graph lines h
  simp only [computeMd5sumF]
  rw [hc]

/-- C3 witness: the amended theorem applied at `test/B` over the empty
graph. -/
theorem c3_md5sum_of_lines_witness :
    specMd5Lines 1 msgB [] = some ["int32 x"] ∧
    computeMd5sumF 2 msgB [] =
      some (md5HexOfString (rustTrimEnd (unlines ["int32 x"]))) :=
  ⟨by decide, c3_md5sum_of_lines 1 msgB [] ["int32 x"] (by decide)⟩

/-- C7.  For every resolved service, md5sum is the digest of one MD5
context fed the request md5 content text and then the response md5
content text (each produced by the field/constant procedure of C3
without hashing, and each independently right-trimmed), formatted as 32
lowercase hex characters. -/
theorem c7_service_md5sum (fuel : Nat) (parsed : ParsedServiceFile)
    (graph : MsgGraph) (reqLines respLines : List String)
    (hreq : specMd5Lines fuel parsed.request_type graph = some reqLines)
    (hresp : specMd5Lines fuel parsed.response_type graph = some respLines) :
    serviceMd5sumF fuel parsed graph =
      some (md5HexBytes
        (strBytes (rustTrimEnd (unlines reqLines)) ++
          strBytes (rustTrimEnd (unlines respLines)))) := by
  have h1 := computeMd5ContentF_eq_unlines fuel parsed.request_type graph
    reqLines hreq
  have h2 := computeMd5ContentF_eq_unlines fuel parsed.response_type graph
    respLines hresp
  unfold serviceMd5sumF
  rw [h1, h2]

/-- C7 witness: the theorem applied at the service `test/Srv` whose
request and response are both `test/B`, over the empty graph. -/
theorem c7_service_md5sum_witness :
    specMd5Lines 1 srvBB.request_type [] = some ["int32 x"] ∧
    serviceMd5sumF 1 srvBB [] =
      some (md5HexBytes
        (strBytes (rustTrimEnd (unlines ["int32 x"])) ++
          strBytes (rustTrimEnd (unlines ["int32 x"])))) :=
  ⟨by decide, c7_service_md5sum 1 srvBB [] ["int32 x"] ["int32 x"]
    (by decide) (by decide)⟩

/-! ### Resolved-map (association list) lemmas -/

/-- Replacing the value under key `k` makes `find?` at `k` return the
new binding, provided the key occurs. -/
theorem find_map_replace (es : List (String × MessageFile)) (k : String)
    (v : MessageFile) (h : (es.any fun e => e.1 == k) = true) :
    ((es.map fun e => if e.1 == k then (k, v) else e).find?
      fun e => e.1 == k) = some (k, v) := by
  induction es with
  | nil => simp at h
  | cons e es ih =>
    by_cases he : (e.1 == k) = true
    · simp only [List.map_cons, if_pos he]
      simp [List.find?]
    · have he' : (e.1 == k) = false := by rwa [Bool.not_eq_true] at he
      have hes : (es.any fun e => e.1 == k) = true := by
        simpa [List.any_cons, he'] using h
      simp only [List.map_cons]
      rw [if_neg he]
      simp only [List.find?, he']
      exact ih hes

/-- Appending a fresh binding makes `find?` at its key return it. -/
theorem find_append_new (es : List (String × MessageFile)) (k : String)
    (v : MessageFile) (h : (es.any fun e => e.1 == k) = false) :
    ((es ++ [(k, v)]).find? fun e => e.1 == k) = some (k, v) := by
  induction es with
  | nil => simp [List.find?]
  | cons e es ih =>
    simp only [List.any_cons, Bool.or_eq_false_iff] at h
    simp only [List.cons_append, List.find?, h.1]
    exact ih h.2

/-- Lookup after keyed insertion at the inserted key. -/
theorem MsgGraph.get_insert_self (g : MsgGraph) (k : String) (v : MessageFile) :
    (g.insert k v).get k = some v := by
  unfold MsgGraph.insert MsgGraph.get
  by_cases h : List.any g (fun e => e.1 == k)
  · rw [if_pos h, find_map_replace g k v h]
    rfl
  · rw [if_neg h, find_append_new g k v (by rwa [Bool.not_eq_true] at h)]
    rfl

/-- Replacement at key `k` does not affect `find?` at a key `k' ≠ k`. -/
theorem find_map_replace_ne (es : List (String × MessageFile))
    (k k' : String) (v : MessageFile) (hne : k' ≠ k) :
    ((es.map fun e => if e.1 == k then (k, v) else e).find?
      fun e => e.1 == k') = es.find? fun e => e.1 == k' := by
  induction es with
  | nil => rfl
  | cons e es ih =>
    by_cases he : (e.1 == k) = true
    · have he' : e.1 = k := by simpa using he
      have hk : ((k : String) == k') = false := by
        simp [BEq.comm]
        exact fun hc => hne hc.symm
      have hek : (e.1 == k') = false := by rw [he']; exact hk
      simp only [List.map_cons, if_pos he, List.find?, hk, hek]
      exact ih
    · have he' : (e.1 == k) = false := by rwa [Bool.not_eq_true] at he
      by_cases he2 : (e.1 == k') = true
      · simp only [List.map_cons, if_neg he, List.find?, he2]
      · have he2' : (e.1 == k') = false := by rwa [Bool.not_eq_true] at he2
        simp only [List.map_cons, if_neg he, List.find?, he2']
        exact ih

/-- An appended fresh binding at key `k` does not affect `find?` at a
key `k' ≠ k`. -/
theorem find_append_ne (es : List (String × MessageFile)) (k k' : String)
    (v : MessageFile) (hne : k' ≠ k) :
    ((es ++ [(k, v)]).find? fun e => e.1 == k') =
      es.find? fun e => e.1 == k' := by
  induction es with
  | nil =>
    have hk : ((k : String) == k') = false := by
      simp [BEq.comm]
      exact fun hc => hne hc.symm
    simp [List.find?, hk]
  | cons e es ih =>
    by_cases he2 : (e.1 == k') = true
    · simp only [List.cons_append, List.find?, he2]
    · have he2' : (e.1 == k') = false := by rwa [Bool.not_eq_true] at he2
      simp only [List.cons_append, List.find?, he2']
      exact ih

/-- Lookup after keyed insertion at any other key is unchanged. -/
theorem MsgGraph.get_insert_ne (g : MsgGraph) (k k' : String)
    (v : MessageFile) (hne : k' ≠ k) :
    (g.insert k v).get k' = g.get k' := by
  unfold MsgGraph.insert MsgGraph.get
  by_cases h : List.any g (fun e => e.1 == k)
  · rw [if_pos h, find_map_replace_ne g k k' v hne]
  · rw [if_neg h, find_append_ne g k k' v hne]

/-- Insertion never removes a key. -/
theorem MsgGraph.get_insert_isSome (g : MsgGraph) (k k' : String)
    (v : MessageFile) (h : (g.get k').isSome) :
    ((g.insert k v).get k').isSome := by
  by_cases hk : k' = k
  · subst hk; rw [MsgGraph.get_insert_self]; rfl
  · rwa [MsgGraph.get_insert_ne g k k' v hk]

/-- Inserting a fresh key grows the map by one entry. -/
theorem MsgGraph.size_insert_fresh (g : MsgGraph) (k : String)
    (v : MessageFile) (h : g.get k = none) :
    (g.insert k v).size = g.size + 1 := by
  have hfind : List.find? (fun e => e.1 == k) g = none := by
    unfold MsgGraph.get at h
    cases hf : List.find? (fun e => e.1 == k) g with
    | none => rfl
    | some e' => rw [hf] at h; simp at h
  have hany : List.any g (fun e => e.1 == k) = false := by
    by_contra hc
    rw [Bool.not_eq_false, List.any_eq_true] at hc
    obtain ⟨e, hmem, hek⟩ := hc
    exact absurd hek (by simpa using List.find?_eq_none.mp hfind e hmem)
  unfold MsgGraph.insert MsgGraph.size
  rw [if_neg (by simp [hany])]
  simp

/-! ### Termination and result shape of the resolver loop -/

/-- Measure of a cons queue. -/
theorem queueMeasure_cons (a : MessageMetadata) (q : List MessageMetadata) :
    queueMeasure (a :: q) =
      (MAX_PARSE_ITER_LIMIT + 2 - a.seen_count) + queueMeasure q := by
  simp [queueMeasure]

/-- Measure of a queue with an item pushed to the back. -/
theorem queueMeasure_push (q : List MessageMetadata) (b : MessageMetadata) :
    queueMeasure (q ++ [b]) =
      queueMeasure q + (MAX_PARSE_ITER_LIMIT + 2 - b.seen_count) := by
  simp [queueMeasure]

/-- A successfully resolved `MessageFile` carries the parsed message it
was resolved from. -/
theorem resolveF_parsed (fuel : Nat) (parsed : ParsedMessageFile)
    (graph : MsgGraph) (mf : MessageFile)
    (h : MessageFile.resolveF fuel parsed graph = some mf) :
    mf.parsed = parsed := by
  unfold MessageFile.resolveF at h
  cases h1 : computeMd5sumF fuel parsed graph with
  | none => rw [h1] at h; exact absurd h (by simp)
  | some md5 =>
    rw [h1] at h
    cases h2 : computeFullDefinitionF fuel parsed graph with
    | none => rw [h2] at h; exact absurd h (by simp)
    | some defn =>
      rw [h2] at h
      cases h3 : determineIfFixedLengthF fuel parsed graph with
      | none => rw [h3] at h; exact absurd h (by simp)
      | some fl =>
        rw [h3] at h
        injection h with h
        rw [← h]

/-- The resolver loop returns a result whenever the fuel exceeds the
queue measure. -/
theorem resolveLoopF_isSome (fuel : Nat) :
    ∀ q res, queueMeasure q < fuel → (resolveLoopF fuel q res).isSome := by
  induction fuel with
  | zero => intro q res h; omega
  | succ fuel ih =>
    intro q res h
    cases q with
    | nil => simp [resolveLoopF]
    | cons item rest =>
      obtain ⟨msg, c⟩ := item
      rw [queueMeasure_cons] at h
      simp only [resolveLoopF]
      by_cases hfr : fullyResolvedCheck res msg
      · rw [if_pos hfr]
        cases hres : MessageFile.resolveF (MsgGraph.size res + 1) msg res with
        | none => simp
        | some mf =>
          dsimp only
          by_cases hc : c > MAX_PARSE_ITER_LIMIT
          · simp [hc]
          · rw [if_neg hc]
            apply ih
            simp only [MAX_PARSE_ITER_LIMIT] at *
            omega
      · rw [if_neg hfr]
        by_cases hc : c > MAX_PARSE_ITER_LIMIT
        · simp [hc]
        · rw [if_neg hc]
          apply ih
          rw [queueMeasure_push]
          simp only [MAX_PARSE_ITER_LIMIT] at *
          omega

/-- Measure of the initial queue. -/
theorem queueMeasure_init (messages : List ParsedMessageFile) :
    queueMeasure (messages.map (fun msg => ⟨msg, 0⟩)) =
      messages.length * (MAX_PARSE_ITER_LIMIT + 2) := by
  induction messages with
  | nil => simp [queueMeasure]
  | cons m ms ih =>
    rw [List.map_cons, queueMeasure_cons, ih]
    simp [MAX_PARSE_ITER_LIMIT]
    ring

/-- Whenever the loop ends in `ok`, every queued message and every
already-resolved key is resolved in the final map. -/
theorem resolveLoopF_ok_resolved (fuel : Nat) :
    ∀ q res r, resolveLoopF fuel q res = some (Except.ok r) →
      (∀ item ∈ q, (MsgGraph.get r item.msg.getFullName).isSome) ∧
      (∀ k, (MsgGraph.get res k).isSome → (MsgGraph.get r k).isSome) := by
  induction fuel with
  | zero => intro q res r h; simp [resolveLoopF] at h
  | succ fuel ih =>
    intro q res r h
    cases q with
    | nil =>
      simp only [resolveLoopF, Option.some.injEq, Except.ok.injEq] at h
      subst h
      exact ⟨by intro item hmem; simp at hmem, fun k hk => hk⟩
    | cons item rest =>
      obtain ⟨msg, c⟩ := item
      simp only [resolveLoopF] at h
      by_cases hfr : fullyResolvedCheck res msg
      · rw [if_pos hfr] at h
        cases hres : MessageFile.resolveF (MsgGraph.size res + 1) msg res with
        | none => rw [hres] at h; exact absurd h (by simp)
        | some mf =>
          rw [hres] at h
          dsimp only at h
          by_cases hc : c > MAX_PARSE_ITER_LIMIT
          · rw [if_pos hc] at h; exact absurd h (by simp)
          · rw [if_neg hc] at h
            have hmf : mf.parsed = msg := resolveF_parsed _ _ _ _ hres
            obtain ⟨hq, hmono⟩ :=
              ih rest (res.insert mf.getFullName mf) r h
            refine ⟨?_, ?_⟩
            · intro it hmem
              rcases List.mem_cons.mp hmem with heq | hmem'
              · subst heq
                apply hmono
                have hkey : mf.getFullName = msg.getFullName := by
                  unfold MessageFile.getFullName ParsedMessageFile.getFullName
                  rw [hmf]
                rw [← hkey, MsgGraph.get_insert_self]
                rfl
              · exact hq it hmem'
            · intro k hk
              exact hmono k (MsgGraph.get_insert_isSome _ _ _ _ hk)
      · rw [if_neg hfr] at h
        by_cases hc : c > MAX_PARSE_ITER_LIMIT
        · rw [if_pos hc] at h; exact absurd h (by simp)
        · rw [if_neg hc] at h
          obtain ⟨hq, hmono⟩ := ih (rest ++ [⟨msg, c + 1⟩]) res r h
          refine ⟨?_, hmono⟩
          intro it hmem
          rcases List.mem_cons.mp hmem with heq | hmem'
          · subst heq
            exact hq ⟨msg, c + 1⟩ (by simp)
          · exact hq it (by simp [hmem'])

/-- The `fully_resolved` condition holds exactly when every
non-primitive field's referenced full name is already resolved. -/
theorem fullyResolvedCheck_iff (resolved : MsgGraph)
    (msg : ParsedMessageFile) :
    fullyResolvedCheck resolved msg = true ↔
      ∀ field ∈ msg.fields,
        (ros1PrimitiveTypes.contains field.field_type.field_type ||
          ros2PrimitiveTypes.contains field.field_type.field_type) = false →
        (MsgGraph.get resolved field.getFullName).isSome := by
  unfold fullyResolvedCheck
  rw [List.all_eq_true]
  constructor
  · intro h field hmem hprim
    have hf := h field hmem
    simp only [hprim, Bool.not_false, if_true] at hf
    exact hf
  · intro h field hmem
    by_cases hp : (ros1PrimitiveTypes.contains field.field_type.field_type ||
        ros2PrimitiveTypes.contains field.field_type.field_type) = true
    · have hb : (!(ros1PrimitiveTypes.contains field.field_type.field_type ||
          ros2PrimitiveTypes.contains field.field_type.field_type)) = false := by
        rw [hp]; rfl
      simp only [hb, Bool.false_eq_true, if_false]
    · have hp' : (ros1PrimitiveTypes.contains field.field_type.field_type ||
          ros2PrimitiveTypes.contains field.field_type.field_type) = false := by
        rwa [Bool.not_eq_true] at hp
      simp only [hp', Bool.not_false, if_true]
      exact h field hmem hp'

/-- A popped unresolvable message whose counter exceeded the limit makes
the loop fail immediately, reporting the names of everything still in
the work queue (the popped message, pushed back with a bumped counter,
included). -/
theorem resolveLoopF_limit_error (fuel : Nat) (msg : ParsedMessageFile)
    (c : Nat) (rest : List MessageMetadata) (resolved : MsgGraph)
    (hc : c > MAX_PARSE_ITER_LIMIT)
    (hfr : fullyResolvedCheck resolved msg = false) :
    resolveLoopF (fuel + 1) (MessageMetadata.mk msg c :: rest) resolved =
      some (Except.error (ResolveErr.unresolvedAfterLimit
        ((rest ++ [MessageMetadata.mk msg (c + 1)]).map
          (fun item => item.msg.package ++ "/" ++ item.msg.name)))) := by
  simp only [resolveLoopF, hfr, Bool.false_eq_true, if_false, if_pos hc]

/-! ### The deep-chain counterexample for the resolver -/

/-- Both chain message shapes carry the full name `chainFull`. -/
theorem chainMsg_fullName (p : Nat) :
    (chainMsg p).getFullName = chainFull p := by
  cases p <;> rfl

/-- Distinct chain indices have distinct full names. -/
theorem chainFull_injective (i j : Nat) (h : chainFull i = chainFull j) :
    i = j := by
  have hlen := congrArg (fun s => s.data.length) h
  simp only [chainFull, chainName, String.data_append] at hlen
  simpa using hlen

/-- A list of strings none of which starts with `a`'s first character
does not contain `a`. -/
theorem contains_eq_false_of_head (l : List String) (a : String)
    (h : ∀ s ∈ l, s.data.head? ≠ a.data.head?) : l.contains a = false := by
  induction l with
  | nil => rfl
  | cons x xs ih =>
    have hax : (a == x) = false := by
      rw [beq_eq_false_iff_ne]
      intro heq
      exact h x (by simp) (by rw [heq])
    have hxs := ih (fun s hs => h s (by simp [hs]))
    simp only [List.contains] at hxs ⊢
    simp only [List.elem, hax]
    exact hxs

/-- Chain message names are not primitive type tokens. -/
theorem chainName_not_primitive (i : Nat) :
    (ros1PrimitiveTypes.contains (chainName i) ||
      ros2PrimitiveTypes.contains (chainName i)) = false := by
  have hhead : (chainName i).data.head? = some 'm' := rfl
  have h1 : ros1PrimitiveTypes.contains (chainName i) = false := by
    apply contains_eq_false_of_head
    intro s hs
    rw [hhead]
    fin_cases hs <;> decide
  have h2 : ros2PrimitiveTypes.contains (chainName i) = false := by
    apply contains_eq_false_of_head
    intro s hs
    rw [hhead]
    fin_cases hs <;> decide
  rw [h1, h2]
  rfl

/-- One-step unfolding of `computeMd5sumF` at successor fuel. -/
theorem computeMd5sumF_succ (fuel : Nat) (parsed : ParsedMessageFile)
    (g : MsgGraph) :
    computeMd5sumF (fuel + 1) parsed g =
      match computeMd5ContentCore (fun p => computeMd5sumF fuel p g)
          parsed g with
      | none => none
      | some content => some (md5HexOfString (rustTrimEnd content)) := by
  simp only [computeMd5sumF]

/-- One-step unfolding of `getUniqueFieldTypesF` at successor fuel. -/
theorem getUniqueFieldTypesF_succ (fuel : Nat) (parsed : ParsedMessageFile)
    (g : MsgGraph) :
    getUniqueFieldTypesF (fuel + 1) parsed g =
      uniqueFieldTypesCore (fun p => getUniqueFieldTypesF fuel p g)
        (parsed.version.getD .ros1) g parsed.fields [] := by
  simp only [getUniqueFieldTypesF]

/-- One-step unfolding of `determineIfFixedLengthF` at successor fuel. -/
theorem determineIfFixedLengthF_succ (fuel : Nat)
    (parsed : ParsedMessageFile) (g : MsgGraph) :
    determineIfFixedLengthF (fuel + 1) parsed g =
      fixedLengthFieldsCore (fun p => determineIfFixedLengthF fuel p g)
        g parsed.fields := by
  simp only [determineIfFixedLengthF]

/-- The chain-lookup hypothesis: the first `p` chain messages are in the
map, each resolved entry carrying its parsed message. -/
def ChainLook (g : MsgGraph) (p : Nat) : Prop :=
  ∀ i, i < p → ∃ e, MsgGraph.get g (chainFull i) = some e ∧
    e.parsed = chainMsg i

/-- The md5 computation succeeds on every chain message whose
dependencies are in the map. -/
theorem chain_md5_some (g : MsgGraph) (p : Nat) (hlook : ChainLook g p) :
    ∀ j, j ≤ p → ∃ s, computeMd5sumF (j + 1) (chainMsg j) g = some s := by
  intro j
  induction j with
  | zero => intro _; exact ⟨_, rfl⟩
  | succ j ih =>
    intro hj
    obtain ⟨s, hs⟩ := ih (by omega)
    obtain ⟨e, hge, hpe⟩ := hlook j (by omega)
    have hr1 : isIntrinsicType RosVersion.ros1 (chainName j) = false := by
      have h := chainName_not_primitive j
      rw [Bool.or_eq_false_iff] at h
      simpa [isIntrinsicType] using h.1
    have hcontent : ∃ content,
        computeMd5ContentCore (fun p' => computeMd5sumF (j + 1) p' g)
          (chainMsg (j + 1)) g = some content := by
      simp only [computeMd5ContentCore, chainMsg, md5FieldLinesCore,
        Option.getD, List.foldl]
      simp only [hr1, Bool.false_eq_true, if_false]
      simp only [chainFull] at hge
      rw [hge]
      dsimp only
      rw [hpe, hs]
      exact ⟨_, rfl⟩
    obtain ⟨content, hcontent⟩ := hcontent
    refine ⟨md5HexOfString (rustTrimEnd content), ?_⟩
    rw [computeMd5sumF_succ, hcontent]

/-- Membership in an ordered insertion. -/
theorem mem_insertSortedDistinct (l : List String) (s x : String)
    (h : x ∈ insertSortedDistinct l s) : x ∈ l ∨ x = s := by
  induction l with
  | nil =>
    simp only [insertSortedDistinct, List.mem_singleton] at h
    exact Or.inr h
  | cons y ys ih =>
    simp only [insertSortedDistinct] at h
    by_cases h1 : s == y
    · rw [if_pos h1] at h; exact Or.inl h
    · rw [if_neg h1] at h
      by_cases h2 : compare s y == Ordering.lt
      · rw [if_pos h2] at h
        rcases List.mem_cons.mp h with h3 | h3
        · exact Or.inr h3
        · exact Or.inl h3
      · rw [if_neg h2] at h
        rcases List.mem_cons.mp h with h3 | h3
        · exact Or.inl (by simp [h3])
        · rcases ih h3 with h4 | h4
          · exact Or.inl (by simp [h4])
          · exact Or.inr h4

/-- Membership in a fold of ordered insertions. -/
theorem mem_foldl_insertSorted (l : List String) (x : String) :
    ∀ acc, x ∈ l.foldl insertSortedDistinct acc → x ∈ acc ∨ x ∈ l := by
  induction l with
  | nil => intro acc h; exact Or.inl h
  | cons y ys ih =>
    intro acc h
    rcases ih (insertSortedDistinct acc y) h with h1 | h1
    · rcases mem_insertSortedDistinct acc y x h1 with h2 | h2
      · exact Or.inl h2
      · exact Or.inr (by simp [h2])
    · exact Or.inr (by simp [h1])

/-- The unique-field-types computation succeeds on every chain message
whose dependencies are in the map, and returns only names present in
the map. -/
theorem chain_uniq_some (g : MsgGraph) (p : Nat) (hlook : ChainLook g p) :
    ∀ j, j ≤ p → ∃ l, getUniqueFieldTypesF (j + 1) (chainMsg j) g = some l ∧
      ∀ x ∈ l, (MsgGraph.get g x).isSome := by
  intro j
  induction j with
  | zero => intro _; exact ⟨[], rfl, by simp⟩
  | succ j ih =>
    intro hj
    obtain ⟨l, hl, hmem⟩ := ih (by omega)
    obtain ⟨e, hge, hpe⟩ := hlook j (by omega)
    have hr1 : isIntrinsicType RosVersion.ros1 (chainName j) = false := by
      have h := chainName_not_primitive j
      rw [Bool.or_eq_false_iff] at h
      simpa [isIntrinsicType] using h.1
    refine ⟨l.foldl insertSortedDistinct
      (insertSortedDistinct [] ("p" ++ "/" ++ chainName j)), ?_, ?_⟩
    · rw [getUniqueFieldTypesF_succ]
      simp only [chainMsg, uniqueFieldTypesCore, Option.getD,
        FieldInfo.getFullName]
      simp only [hr1, Bool.false_eq_true, if_false]
      simp only [chainFull] at hge
      rw [hge]
      dsimp only
      rw [hpe, hl]
    · intro x hx
      rcases mem_foldl_insertSorted l x _ hx with h1 | h1
      · rcases mem_insertSortedDistinct _ _ _ h1 with h2 | h2
        · simp at h2
        · subst h2
          simp only [chainFull] at hge
          rw [hge]
          rfl
      · exact hmem x h1

/-- The fixed-length computation succeeds on every chain message whose
dependencies are in the map. -/
theorem chain_fix_some (g : MsgGraph) (p : Nat) (hlook : ChainLook g p) :
    ∀ j, j ≤ p → ∃ b, determineIfFixedLengthF (j + 1) (chainMsg j) g = some b := by
  intro j
  induction j with
  | zero => intro _; exact ⟨true, rfl⟩
  | succ j ih =>
    intro hj
    obtain ⟨b, hb⟩ := ih (by omega)
    obtain ⟨e, hge, hpe⟩ := hlook j (by omega)
    rw [determineIfFixedLengthF_succ]
    simp only [chainMsg, fixedLengthFieldsCore, FieldInfo.getFullName,
      Option.getD]
    simp only [chainFull] at hge
    rw [hge]
    dsimp only
    rw [hpe, hb]
    cases b <;> exact ⟨_, rfl⟩

/-- The dependency fold of the full-definition computation succeeds when
every listed name is in the map. -/
theorem fullDefinitionFold_some (g : MsgGraph) (l : List String)
    (h : ∀ x ∈ l, (MsgGraph.get g x).isSome) :
    ∀ acc, ∃ s, fullDefinitionFold g l acc = some s := by
  induction l with
  | nil => intro acc; exact ⟨acc, rfl⟩
  | cons x xs ih =>
    intro acc
    have hx := h x (by simp)
    obtain ⟨e, he⟩ := Option.isSome_iff_exists.mp hx
    simp only [fullDefinitionFold]
    rw [he]
    exact ih (fun y hy => h y (by simp [hy])) _

/-- The full-definition computation succeeds on every chain message
whose dependencies are in the map. -/
theorem chain_def_some (g : MsgGraph) (p : Nat) (hlook : ChainLook g p) :
    ∀ j, j ≤ p → ∃ s, computeFullDefinitionF (j + 1) (chainMsg j) g = some s := by
  intro j hj
  obtain ⟨l, hl, hmem⟩ := chain_uniq_some g p hlook j hj
  obtain ⟨s, hs⟩ := fullDefinitionFold_some g l
    (fun x hx => hmem x hx) (rustTrim (chainMsg j).source ++ "\n")
  refine ⟨String.mk s.data.dropLast, ?_⟩
  simp only [computeFullDefinitionF]
  rw [hl]
  dsimp only
  rw [hs]

/-- `MessageFile::resolve` succeeds on every chain message whose
dependencies are in the map. -/
theorem chain_resolveF_some (g : MsgGraph) (p : Nat) (hlook : ChainLook g p) :
    ∃ mf, MessageFile.resolveF (p + 1) (chainMsg p) g = some mf := by
  obtain ⟨s1, h1⟩ := chain_md5_some g p hlook p le_rfl
  obtain ⟨s2, h2⟩ := chain_def_some g p hlook p le_rfl
  obtain ⟨b3, h3⟩ := chain_fix_some g p hlook p le_rfl
  refine ⟨⟨chainMsg p, s1, s2, b3⟩, ?_⟩
  simp only [MessageFile.resolveF]
  rw [h1]
  dsimp only
  rw [h2]
  dsimp only
  rw [h3]

/-- Invariant of the chain resolution states: after `p` resolutions the
map holds exactly the first `p` chain messages, each entry carrying its
parsed message, and has size `p`. -/
theorem chainInv (p : Nat) :
    (∀ i, i < p → MsgGraph.get (chainState p) (chainFull i) =
        some (chainFile i) ∧ (chainFile i).parsed = chainMsg i) ∧
    (∀ i, p ≤ i → MsgGraph.get (chainState p) (chainFull i) = none) ∧
    MsgGraph.size (chainState p) = p := by
  induction p with
  | zero =>
    refine ⟨fun i hi => absurd hi (by omega), fun i _ => rfl, rfl⟩
  | succ p ih =>
    obtain ⟨hlt, hnone, hsize⟩ := ih
    have hlook : ChainLook (chainState p) p := fun i hi =>
      ⟨chainFile i, (hlt i hi).1, (hlt i hi).2⟩
    obtain ⟨mf, hmf⟩ := chain_resolveF_some (chainState p) p hlook
    have hfile : chainFile p = mf := by
      unfold chainFile
      rw [hsize, hmf]
      rfl
    have hparsed : (chainFile p).parsed = chainMsg p := by
      rw [hfile]
      exact resolveF_parsed _ _ _ _ hmf
    have hstate : chainState (p + 1) =
        MsgGraph.insert (chainState p) (chainFull p) (chainFile p) := by
      rw [← chainMsg_fullName]
      rfl
    refine ⟨?_, ?_, ?_⟩
    · intro i hi
      by_cases hip : i = p
      · subst hip
        rw [hstate, MsgGraph.get_insert_self]
        exact ⟨rfl, hparsed⟩
      · have hilt : i < p := by omega
        rw [hstate, MsgGraph.get_insert_ne _ _ _ _
          (fun hc => hip (chainFull_injective i p hc))]
        exact hlt i hilt
    · intro i hi
      rw [hstate, MsgGraph.get_insert_ne _ _ _ _
        (fun hc => by have := chainFull_injective i p hc; omega)]
      exact hnone i (by omega)
    · rw [hstate, MsgGraph.size_insert_fresh _ _ _ (hnone p le_rfl), hsize]

/-- A chain message above the resolved prefix fails the
`fully_resolved` check. -/
theorem chain_check_false (p i : Nat) (hpi : p ≤ i) :
    fullyResolvedCheck (chainState p) (chainMsg (i + 1)) = false := by
  have hnone := (chainInv p).2.1 i hpi
  have hor := chainName_not_primitive i
  unfold fullyResolvedCheck
  simp only [chainMsg, List.all_cons, List.all_nil, FieldInfo.getFullName,
    Option.getD]
  simp only [hor, Bool.not_false, if_true]
  simp only [chainFull] at hnone
  rw [hnone]
  rfl

/-- The lowest unresolved chain message passes the `fully_resolved`
check. -/
theorem chain_check_true (p : Nat) :
    fullyResolvedCheck (chainState p) (chainMsg p) = true := by
  cases p with
  | zero => rfl
  | succ q =>
    have hsome := ((chainInv (q + 1)).1 q (by omega)).1
    have hor := chainName_not_primitive q
    unfold fullyResolvedCheck
    simp only [chainMsg, List.all_cons, List.all_nil, FieldInfo.getFullName,
      Option.getD]
    simp only [hor, Bool.not_false, if_true]
    simp only [chainFull] at hsome
    rw [hsome]
    rfl

/-- One resolving loop step on the chain: popping the lowest unresolved
chain message resolves it and advances the state. -/
theorem chain_resolve_step (fuel p c : Nat) (hc : c ≤ MAX_PARSE_ITER_LIMIT)
    (rest : List MessageMetadata) :
    resolveLoopF (fuel + 1) (MessageMetadata.mk (chainMsg p) c :: rest)
      (chainState p) = resolveLoopF fuel rest (chainState (p + 1)) := by
  have hlook : ChainLook (chainState p) p := fun i hi =>
    ⟨chainFile i, ((chainInv p).1 i hi).1, ((chainInv p).1 i hi).2⟩
  obtain ⟨mf, hmf⟩ := chain_resolveF_some (chainState p) p hlook
  have hsize := (chainInv p).2.2
  have hparsed := resolveF_parsed _ _ _ _ hmf
  have hfile : chainFile p = mf := by
    unfold chainFile
    rw [hsize, hmf]
    rfl
  have hinsert : MsgGraph.insert (chainState p) mf.getFullName mf =
      chainState (p + 1) := by
    have hstate : chainState (p + 1) = MsgGraph.insert (chainState p)
        (chainMsg p).getFullName (chainFile p) := rfl
    rw [hstate, hfile]
    have hkey : mf.getFullName = (chainMsg p).getFullName := by
      unfold MessageFile.getFullName ParsedMessageFile.getFullName
      rw [hparsed]
    rw [hkey]
  simp only [resolveLoopF]
  rw [chain_check_true p]
  simp only [if_true]
  rw [hsize, hmf]
  dsimp only
  rw [if_neg (by omega), hinsert]

/-- Processing a block of unresolvable chain messages rotates them to
the back of the queue with bumped counters. -/
theorem chain_fail_block (p : Nat) :
    ∀ (n c : Nat), c ≤ MAX_PARSE_ITER_LIMIT →
    ∀ fuel rest,
      resolveLoopF (fuel + n) (descSeg n (p + 1) c ++ rest) (chainState p) =
        resolveLoopF fuel (rest ++ descSeg n (p + 1) (c + 1)) (chainState p) := by
  intro n
  induction n with
  | zero => intro c _ fuel rest; simp [descSeg]
  | succ n ih =>
    intro c hc fuel rest
    have hfa : fuel + (n + 1) = (fuel + n) + 1 := by omega
    have hidx : p + 1 + n = (p + n) + 1 := by omega
    rw [hfa]
    show resolveLoopF ((fuel + n) + 1)
      ((MessageMetadata.mk (chainMsg (p + 1 + n)) c :: descSeg n (p + 1) c)
        ++ rest) (chainState p) = _
    rw [List.cons_append]
    simp only [resolveLoopF]
    rw [hidx, chain_check_false p (p + n) (by omega)]
    simp only [Bool.false_eq_true, if_false]
    rw [if_neg (by omega)]
    rw [List.append_assoc]
    rw [ih c hc fuel (rest ++ [MessageMetadata.mk (chainMsg ((p + n) + 1)) (c + 1)])]
    rw [List.append_assoc, List.singleton_append]
    have : MessageMetadata.mk (chainMsg ((p + n) + 1)) (c + 1) ::
        descSeg n (p + 1) (c + 1) = descSeg (n + 1) (p + 1) (c + 1) := by
      show _ = MessageMetadata.mk (chainMsg (p + 1 + n)) (c + 1) :: _
      rw [hidx]
    rw [this]

/-- A queue segment splits into its failing block and its last
(lowest-index) element. -/
theorem descSeg_split (n p c : Nat) :
    descSeg (n + 1) p c =
      descSeg n (p + 1) c ++ [MessageMetadata.mk (chainMsg p) c] := by
  induction n with
  | zero => rfl
  | succ n ih =>
    have h1 : descSeg (n + 2) p c =
        MessageMetadata.mk (chainMsg (p + (n + 1))) c :: descSeg (n + 1) p c := rfl
    rw [h1, ih]
    have h2 : descSeg (n + 1) (p + 1) c =
        MessageMetadata.mk (chainMsg ((p + 1) + n)) c :: descSeg n (p + 1) c := rfl
    rw [h2, ← List.cons_append]
    have h3 : p + (n + 1) = (p + 1) + n := by omega
    rw [h3]

/-- Running `k` full passes of the resolver loop over the chain input
resolves the lowest `k` messages at some fuel cost `F ≤ k * (d + 2)`. -/
theorem chain_passes (d : Nat) (hd : d ≤ MAX_PARSE_ITER_LIMIT + 1) :
    ∀ k, k ≤ d → ∃ F, F ≤ k * (d + 2) ∧ ∀ fuel,
      resolveLoopF (fuel + F) (descSeg (d + 1) 0 0) [] =
        resolveLoopF fuel (descSeg (d + 1 - k) k k) (chainState k) := by
  intro k
  induction k with
  | zero =>
    intro _
    refine ⟨0, by omega, fun fuel => ?_⟩
    have h1 : d + 1 - 0 = d + 1 := by omega
    rw [h1]
    rfl
  | succ k ih =>
    intro hk
    obtain ⟨F, hF, hrun⟩ := ih (by omega)
    have hck : k ≤ MAX_PARSE_ITER_LIMIT := by omega
    refine ⟨F + (d - k) + 1, ?_, fun fuel => ?_⟩
    · have hmul : (k + 1) * (d + 2) = k * (d + 2) + (d + 2) :=
        Nat.succ_mul k (d + 2)
      omega
    · have h1 := hrun (fuel + 1 + (d - k))
      have ha : fuel + (F + (d - k) + 1) = (fuel + 1 + (d - k)) + F := by omega
      rw [ha, h1]
      have hsub : d + 1 - k = (d - k) + 1 := by omega
      rw [hsub, descSeg_split (d - k) k k]
      rw [chain_fail_block k (d - k) k hck (fuel + 1)
        [MessageMetadata.mk (chainMsg k) k]]
      rw [List.singleton_append]
      rw [chain_resolve_step fuel k k hck]
      have hsub2 : d + 1 - (k + 1) = d - k := by omega
      rw [hsub2]

/-- The final loop step of the deep chain: the last message resolves,
but its counter is over the limit, so the loop reports the (empty) list
of still-unresolved messages as an error. -/
theorem chain_final_step (fuel d : Nat) (hd : d > MAX_PARSE_ITER_LIMIT) :
    resolveLoopF (fuel + 1) [MessageMetadata.mk (chainMsg d) d]
      (chainState d) =
      some (Except.error (ResolveErr.unresolvedAfterLimit [])) := by
  have hlook : ChainLook (chainState d) d := fun i hi =>
    ⟨chainFile i, ((chainInv d).1 i hi).1, ((chainInv d).1 i hi).2⟩
  obtain ⟨mf, hmf⟩ := chain_resolveF_some (chainState d) d hlook
  have hsize := (chainInv d).2.2
  simp only [resolveLoopF]
  rw [chain_check_true d]
  simp only [if_true]
  rw [hsize, hmf]
  dsimp only
  rw [if_pos hd]
  rfl

/-- The chain input has `d + 1` messages. -/
theorem chainInput_length (d : Nat) : (chainInput d).length = d + 1 := by
  simp [chainInput]

/-- The initial work queue of the chain input is the full descending
segment with zero counters. -/
theorem chainInput_map (d : Nat) :
    (chainInput d).map (fun msg => MessageMetadata.mk msg 0) =
      descSeg (d + 1) 0 0 := by
  have aux : ∀ n, ((List.range n).reverse).map
      (fun i => MessageMetadata.mk (chainMsg i) 0) = descSeg n 0 0 := by
    intro n
    induction n with
    | zero => rfl
    | succ n ih =>
      rw [List.range_succ, List.reverse_append]
      simp only [List.reverse_singleton, List.singleton_append, List.map_cons]
      rw [ih]
      have : descSeg (n + 1) 0 0 =
          MessageMetadata.mk (chainMsg (0 + n)) 0 :: descSeg n 0 0 := rfl
      rw [this, Nat.zero_add]
  unfold chainInput
  rw [List.map_map]
  exact aux (d + 1)

/-- The chain input is acyclic: its reversal (lowest index first) is a
topological presentation. -/
theorem chain_acyclic (d : Nat) :
    (chainInput d).Perm ((List.range (d + 1)).map chainMsg) ∧
    TopoOrdered ((List.range (d + 1)).map chainMsg) := by
  constructor
  · unfold chainInput
    rw [List.map_reverse]
    exact List.reverse_perm _
  · intro k msg hget field hf hprim
    rw [List.get?_map] at hget
    cases hk : (List.range (d + 1)).get? k with
    | none => rw [hk] at hget; exact absurd hget (by simp)
    | some i =>
      rw [hk] at hget
      have hkd : k < d + 1 := by
        by_contra hc
        rw [List.get?_eq_none.mpr (by simpa using hc)] at hk
        exact absurd hk (by simp)
      have hik : i = k := by
        have := List.get?_range hkd
        rw [this] at hk
        injection hk with h
        exact h.symm
      subst hik
      have hmsg : some (chainMsg i) = some msg := hget
      injection hmsg with hmsg
      subst hmsg
      cases hi : i with
      | zero =>
        subst hi
        exact absurd hf (by simp [chainMsg])
      | succ j =>
        subst hi
        have hfield : field = ⟨⟨some "p", "p", chainName j, none⟩, "x", none⟩ := by
          simpa [chainMsg] using hf
      
        refine ⟨j, by omega, chainMsg j, ?_, ?_⟩
        · rw [List.get?_map, List.get?_range (by omega)]
          rfl
        · rw [chainMsg_fullName, hfield]
          rfl

/-- C6.  Counterexample: the 2050-message linear chain (in
deepest-first order) is acyclic — its reversal is a topological
presentation — yet `resolve_dependency_graph` does not fully resolve
it: the deepest message is popped with seen counter 2049, and although
it resolves at that very step, the counter check fires and the function
returns the unresolved-after-limit error (here reporting an empty list,
since nothing is actually left unresolved). -/
theorem c6_counterexample :
    (∃ perm, (chainInput 2049).Perm perm ∧ TopoOrdered perm) ∧
    resolveDependencyGraphF (chainInput 2049) =
      some (Except.error (ResolveErr.unresolvedAfterLimit [])) := by
  constructor
  · exact ⟨_, (chain_acyclic 2049).1, (chain_acyclic 2049).2⟩
  · unfold resolveDependencyGraphF
    rw [chainInput_length, chainInput_map]
    obtain ⟨F, hF, hrun⟩ :=
      chain_passes 2049 (by norm_num [MAX_PARSE_ITER_LIMIT]) 2049 le_rfl
    have hFle : F ≤ 2049 * 2051 := by
      have : (2049 : Nat) * (2049 + 2) = 2049 * 2051 := by norm_num
      omega
    have harith : resolveFuel (2049 + 1) =
        ((resolveFuel (2049 + 1) - 1 - F) + 1) + F := by
      simp only [resolveFuel, MAX_PARSE_ITER_LIMIT]
      omega
    rw [harith, hrun]
    have hseg : descSeg (2049 + 1 - 2049) 2049 2049 =
        [MessageMetadata.mk (chainMsg 2049) 2049] := rfl
    rw [hseg]
    exact chain_final_step _ 2049 (by norm_num [MAX_PARSE_ITER_LIMIT])

/-- C6 (amended).  The resolver terminates on every input (the fueled
loop returns a result at the canonical fuel); a message is resolvable
exactly when every non-primitive field's referenced type is already
resolved; when a popped unresolvable message's seen counter exceeds
2048 the loop returns an error reporting the names of all messages
still in the work queue; and whenever resolution returns successfully,
every input message is resolved in the result.  (The original claim's
"any acyclic input set is fully resolved" is refuted by the
counterexample: deep acyclic chains trip the seen-counter limit.) -/
theorem c6_resolver_behaviour :
    (∀ messages : List ParsedMessageFile,
      (resolveDependencyGraphF messages).isSome) ∧
    (∀ (resolved : MsgGraph) (msg : ParsedMessageFile),
      fullyResolvedCheck resolved msg = true ↔
        ∀ field ∈ msg.fields,
          (ros1PrimitiveTypes.contains field.field_type.field_type ||
            ros2PrimitiveTypes.contains field.field_type.field_type) = false →
          (MsgGraph.get resolved field.getFullName).isSome) ∧
    (∀ (fuel : Nat) (msg : ParsedMessageFile) (c : Nat)
      (rest : List MessageMetadata) (resolved : MsgGraph),
      c > MAX_PARSE_ITER_LIMIT → fullyResolvedCheck resolved msg = false →
      resolveLoopF (fuel + 1) (MessageMetadata.mk msg c :: rest) resolved =
        some (Except.error (ResolveErr.unresolvedAfterLimit
          ((rest ++ [MessageMetadata.mk msg (c + 1)]).map
            (fun item => item.msg.package ++ "/" ++ item.msg.name))))) ∧
    (∀ (messages : List ParsedMessageFile) (g : MsgGraph),
      resolveDependencyGraphF messages = some (Except.ok g) →
      ∀ m ∈ messages, (MsgGraph.get g m.getFullName).isSome) := by
  refine ⟨?_, fullyResolvedCheck_iff, resolveLoopF_limit_error, ?_⟩
  · intro messages
    apply resolveLoopF_isSome
    rw [queueMeasure_init]
    simp only [resolveFuel]
    omega
  · intro messages g h m hm
    have := (resolveLoopF_ok_resolved (resolveFuel messages.length)
      (messages.map (fun msg => MessageMetadata.mk msg 0)) [] g h).1
      (MessageMetadata.mk m 0) (List.mem_map_of_mem _ hm)
    exact this

/-- C6 witness: the amended theorem applied at a one-message input that
resolves, at an empty resolved map, at an over-limit queue head, and at
the successful one-message resolution result. -/
theorem c6_resolver_behaviour_witness :
    (resolveDependencyGraphF [msgB]).isSome ∧
    fullyResolvedCheck [] msgB = true ∧
    resolveLoopF (0 + 1) [MessageMetadata.mk msgM 2049] [] =
      some (Except.error (ResolveErr.unresolvedAfterLimit
        ((([] : List MessageMetadata) ++ [MessageMetadata.mk msgM (2049 + 1)]).map
          (fun item => item.msg.package ++ "/" ++ item.msg.name)))) ∧
    (MsgGraph.get [(fileB.getFullName, fileB)] msgB.getFullName).isSome :=
  ⟨c6_resolver_behaviour.1 [msgB],
   (c6_resolver_behaviour.2.1 [] msgB).mpr (by decide),
   c6_resolver_behaviour.2.2.1 0 msgM 2049 [] [] (by decide) (by decide),
   c6_resolver_behaviour.2.2.2 [msgB] [(fileB.getFullName, fileB)]
     (by rfl) msgB (by decide)⟩
